import Mathlib

/-!
# Verification of the P2P file-sharing peer engine

Shallow embedding of the repository's core modules:

* `message.py`  — wire codec (`Message.deserialize`), bitfield helpers
  (`BitfieldHelper.create_bitfield` / `parse_bitfield`);
* `file_manager.py` — piece geometry (`get_piece_info`) and the piece
  write path (`write_piece`);
* `config.py`   — derived piece geometry (`CommonConfig.__post_init__`);
* `peer.py`     — per-session protocol state (`PeerState`), the inbound
  message handlers, the request/serve paths, the two scheduler bodies
  (`_recalculate_preferred_neighbors`, `_select_optimistic_unchoked`) and
  `_remove_peer`, combined into a labelled step relation.

Bytes are modelled as `List Nat` (one entry per byte), machine integers as
`Nat`, Python `float` rates as `ℚ`, Python `set` as `Finset ℕ`, and Python
dicts as insertion-ordered association lists.  Randomness (`random.choice`,
`random.shuffle`) is modelled by oracle parameters: an index for `choice`,
and an arbitrary permutation for `shuffle`.
-/

namespace P2P

/-! ## constants.py -/

/-- Model of `MESSAGE_TYPES` from constants.py (string names as an inductive). -/
inductive MsgType where
  | choke | unchoke | interested | not_interested
  | have | bitfield | request | piece
  deriving DecidableEq, Repr

/-- Model of `MESSAGE_ID_TO_TYPE`: reverse mapping from the 1-byte type id. -/
def MESSAGE_ID_TO_TYPE : Nat → Option MsgType
  | 0 => some .choke
  | 1 => some .unchoke
  | 2 => some .interested
  | 3 => some .not_interested
  | 4 => some .have
  | 5 => some .bitfield
  | 6 => some .request
  | 7 => some .piece
  | _ => none

/-- Model of `MESSAGE_LENGTH_LEN = 4`. -/
def MESSAGE_LENGTH_LEN : Nat := 4
/-- Model of `MESSAGE_TYPE_LEN = 1`. -/
def MESSAGE_TYPE_LEN : Nat := 1

/-! ## Big-endian 32-bit words (`struct.unpack('!I', ·)`) -/

/-- Model of `struct.unpack('!I', b)[0]` on a 4-byte big-endian buffer. -/
def beWord (b : List Nat) : Nat :=
  b.foldl (fun acc x => acc * 256 + x) 0

/-- Model of `struct.pack('!I', n)`: 4 big-endian bytes of `n` (n < 2^32). -/
def bePack (n : Nat) : List Nat :=
  [n / 2 ^ 24 % 256, n / 2 ^ 16 % 256, n / 2 ^ 8 % 256, n % 256]

/-! ## message.py : `Message` -/

/-- A parsed regular message: the 1-byte type id, its decoded name, and the
raw payload bytes (`Message.__init__`). -/
structure Message where
  type_id : Nat
  type_name : MsgType
  payload : List Nat
  deriving DecidableEq, Repr

/-- Model of `Message.deserialize(data)`: a complete frame including the 4-byte
length prefix.  Checks only the minimum length and the type byte; the
payload is sliced out raw (`data[5 : 5 + msg_length - 1]`) with **no**
per-type validation.  `ValueError` is modelled as `Except.error`. -/
def Message.deserialize (data : List Nat) : Except String Message :=
  if data.length < MESSAGE_LENGTH_LEN + MESSAGE_TYPE_LEN then
    .error "Message too short"
  else
    let msg_length := beWord (data.take MESSAGE_LENGTH_LEN)
    let msg_type := data.getD MESSAGE_LENGTH_LEN 0
    let payload := (data.drop (MESSAGE_LENGTH_LEN + MESSAGE_TYPE_LEN)).take
      (msg_length - MESSAGE_TYPE_LEN)
    match MESSAGE_ID_TO_TYPE msg_type with
    | none => .error "Unknown message type ID"
    | some t => .ok ⟨msg_type, t, payload⟩

/-- Model of `Message.get_piece_index`: first 4 payload bytes, big-endian, for
have/request/piece; `None` when the payload is shorter than 4 bytes. -/
def Message.get_piece_index (m : Message) : Option Nat :=
  match m.type_name with
  | .have | .request | .piece =>
      if m.payload.length ≥ 4 then some (beWord (m.payload.take 4)) else none
  | _ => none

/-- Model of `Message.get_piece_data`: payload bytes after the 4-byte index, for a
piece message with payload strictly longer than 4 bytes. -/
def Message.get_piece_data (m : Message) : Option (List Nat) :=
  if m.type_name = .piece ∧ m.payload.length > 4 then
    some (m.payload.drop 4)
  else none

/-! ## message.py : `BitfieldHelper` -/

/-- One `bitfield[byte_idx] |= (1 << bit_idx)` step of
`BitfieldHelper.create_bitfield` (MSB-first within each byte). -/
def setPieceBit (bf : List Nat) (piece_idx : Nat) : List Nat :=
  bf.set (piece_idx / 8) ((bf.getD (piece_idx / 8) 0) ||| (1 <<< (7 - piece_idx % 8)))

/-- Model of `BitfieldHelper.create_bitfield(num_pieces, pieces_have)` with an
explicit list (the `pieces_have is not None` branch): start from
`⌈num_pieces/8⌉` zero bytes and set the bit of every in-range index. -/
def create_bitfield (num_pieces : Nat) (pieces_have : List Nat) : List Nat :=
  pieces_have.foldl
    (fun bf piece_idx =>
      if piece_idx < num_pieces then setPieceBit bf piece_idx else bf)
    (List.replicate ((num_pieces + 7) / 8) 0)

/-- Model of `BitfieldHelper.parse_bitfield(bitfield, num_pieces)`: indices
`i < num_pieces` whose bit `(7 - i % 8)` of byte `i / 8` is set
(`bitfield[byte_idx] & (1 << bit_idx)` truthiness, guarded by
`byte_idx < len(bitfield)`). -/
def parse_bitfield (bitfield : List Nat) (num_pieces : Nat) : List Nat :=
  (List.range num_pieces).filter fun piece_idx =>
    piece_idx / 8 < bitfield.length ∧
      (bitfield.getD (piece_idx / 8) 0) &&& (1 <<< (7 - piece_idx % 8)) ≠ 0

/-- Model of `BitfieldHelper.has_piece(bitfield, piece_index)`. -/
def has_piece_bit (bitfield : List Nat) (piece_index : Nat) : Bool :=
  if piece_index / 8 < bitfield.length then
    (bitfield.getD (piece_index / 8) 0) &&& (1 <<< (7 - piece_index % 8)) ≠ 0
  else false

/-- Model of `BitfieldHelper.set_piece(bitfield, piece_index)` (in-place `|=`,
a no-op when `byte_idx ≥ len(bitfield)` because `list.set` is). -/
def set_piece (bitfield : List Nat) (piece_index : Nat) : List Nat :=
  if piece_index / 8 < bitfield.length then setPieceBit bitfield piece_index
  else bitfield

/-! ## file_manager.py / config.py : piece geometry -/

/-- Model of `math.ceil(file_size / piece_size)` (= `(F + P - 1) // P` in
`CommonConfig.__post_init__`; both agree on exact integer arithmetic). -/
def numPieces (file_size piece_size : Nat) : Nat :=
  (file_size + piece_size - 1) / piece_size

/-- Model of `last_piece_size = F % P`, replaced by `P` when that is `0` and `F > 0`
(both `FileManager.__init__` and `CommonConfig.__post_init__`). -/
def lastPieceSize (file_size piece_size : Nat) : Nat :=
  let r := file_size % piece_size
  if r = 0 ∧ file_size > 0 then piece_size else r

/-- Model of `PieceInfo` dataclass from file_manager.py. -/
structure PieceInfo where
  index : Nat
  offset : Nat
  size : Nat
  is_last : Bool
  deriving DecidableEq, Repr

/-- Model of `FileManager.get_piece_info`: `ValueError` on an out-of-range index is
modelled as `none`. -/
def get_piece_info (file_size piece_size piece_index : Nat) : Option PieceInfo :=
  if piece_index < numPieces file_size piece_size then
    let is_last := piece_index = numPieces file_size piece_size - 1
    some ⟨piece_index, piece_index * piece_size,
      if is_last then lastPieceSize file_size piece_size else piece_size,
      is_last⟩
  else none

/-- Result of `FileManager.write_piece`: the returned `bool`, the updated
`pieces_have` set, and whether a piece file was (re)written to disk. -/
structure WriteResult where
  ok : Bool
  pieces_have : Finset Nat
  wrote_file : Bool
  deriving DecidableEq

/-- Model of `FileManager.write_piece(piece_index, data)`.  Checks, in source order:
duplicate (returns `False` without touching storage), then
`get_piece_info` (its `ValueError`, modelled as `none`, propagates), then
the size check (returns `False`), then writes the piece file and adds the
index to `pieces_have` (the success path; the I/O-failure branch is not
modelled — storage writes succeed in this embedding). -/
def write_piece (pieces_have : Finset Nat) (file_size piece_size : Nat)
    (piece_index : Nat) (data : List Nat) : Option WriteResult :=
  if piece_index ∈ pieces_have then
    some ⟨false, pieces_have, false⟩
  else
    match get_piece_info file_size piece_size piece_index with
    | none => none
    | some info =>
      if data.length ≠ info.size then
        some ⟨false, pieces_have, false⟩
      else
        some ⟨true, insert piece_index pieces_have, true⟩

/-! ## peer.py : per-session state (`PeerState` dataclass)

`last_piece_time` (a wall-clock timestamp that is never read) is omitted;
rates (Python `float`) are modelled as `ℚ`. -/

structure PeerState where
  peer_id : Nat
  am_choking : Bool := true
  am_interested : Bool := false
  peer_choking : Bool := true
  peer_interested : Bool := false
  bitfield : Option (List Nat) := none
  download_rate : ℚ := 0
  upload_rate : ℚ := 0
  bytes_downloaded : Nat := 0
  bytes_uploaded : Nat := 0
  pending_request : Option Nat := none
  deriving DecidableEq, Repr

/-! ### Insertion-ordered association lists (Python dicts) -/

/-- Model of `d.get(key)` / `d[key]` on an insertion-ordered dict. -/
def lookupA {α : Type} : List (Nat × α) → Nat → Option α
  | [], _ => none
  | (k, v) :: rest, key => if k = key then some v else lookupA rest key

/-- In-place mutation of the `PeerState` object stored under `key`
(Python handlers mutate the dataclass through the dict reference). -/
def updA {α : Type} (l : List (Nat × α)) (key : Nat) (f : α → α) : List (Nat × α) :=
  l.map fun q => if q.1 = key then (q.1, f q.2) else q

/-- Model of `d[key] = v`: replace in place if present, else append (Python dicts
keep the original insertion position on re-assignment). -/
def setA {α : Type} (l : List (Nat × α)) (key : Nat) (v : α) : List (Nat × α) :=
  if (lookupA l key).isSome then updA l key (fun _ => v)
  else l ++ [(key, v)]

/-- Model of `del d[key]` (first matching entry; keys are unique in reachable
states). -/
def eraseA {α : Type} : List (Nat × α) → Nat → List (Nat × α)
  | [], _ => []
  | (k, v) :: rest, key => if k = key then rest else (k, v) :: eraseA rest key

/-! ### The `Peer` object (the fields the protocol engine reads/writes) -/

/-- Outbound frame payloads built by the `Message.create_*` helpers. -/
inductive OutMsg where
  | interested | not_interested | choke | unchoke
  | have (i : Nat) | bitfieldMsg (bf : List Nat)
  | request (i : Nat) | piece (i : Nat) (data : List Nat)
  deriving DecidableEq, Repr

/-- One `socket.send` of a serialized frame to a neighbor. -/
structure Output where
  dst : Nat
  msg : OutMsg
  deriving DecidableEq, Repr

/-- The mutable state of `Peer` (peer.py) plus the configuration it was
built from.  `storage i` is the on-disk content of piece `i` (pieces the
peer possesses); `fm_pieces_have` is `FileManager.pieces_have`;
`pieces_needed` is the peer's own copy refreshed from the file manager. -/
structure Peer where
  peer_id : Nat
  k : Nat
  num_pieces : Nat
  file_size : Nat
  piece_size : Nat
  has_file : Bool
  storage : Nat → List Nat
  fm_pieces_have : Finset Nat
  pieces_needed : Finset Nat
  my_bitfield : List Nat
  connections : List Nat
  peer_states : List (Nat × PeerState)
  pending_requests : List (Nat × Nat)
  preferred_neighbors : List Nat
  optimistic_unchoked : Option Nat

/-- Model of `FileManager.read_piece`: `None` unless the piece is possessed. -/
def read_piece (p : Peer) (piece_index : Nat) : Option (List Nat) :=
  if piece_index ∈ p.fm_pieces_have then some (p.storage piece_index) else none


/-! ### `_send_*` helpers -/

/-- Model of `Peer._send_interested` (sends only when the connection exists). -/
def send_interested (p : Peer) (pid : Nat) : List Output :=
  if pid ∈ p.connections then [⟨pid, .interested⟩] else []

/-- Model of `Peer._send_not_interested`. -/
def send_not_interested (p : Peer) (pid : Nat) : List Output :=
  if pid ∈ p.connections then [⟨pid, .not_interested⟩] else []

/-- Model of `Peer._send_choke`: send and set that session's `am_choking`. -/
def send_choke (p : Peer) (pid : Nat) : Peer × List Output :=
  if pid ∈ p.connections then
    ({ p with peer_states := updA p.peer_states pid (fun st => { st with am_choking := true }) }, [⟨pid, .choke⟩])
  else (p, [])

/-- Model of `Peer._send_unchoke`: send and clear that session's `am_choking`. -/
def send_unchoke (p : Peer) (pid : Nat) : Peer × List Output :=
  if pid ∈ p.connections then
    ({ p with peer_states := updA p.peer_states pid (fun st => { st with am_choking := false }) }, [⟨pid, .unchoke⟩])
  else (p, [])

/-- Model of `Peer._broadcast_have`: a have frame on every connection, in
connection order. -/
def broadcast_have (p : Peer) (piece_index : Nat) : List Output :=
  p.connections.map fun pid => ⟨pid, .have piece_index⟩

/-! ### Inbound handlers (`Peer._handle_*`) -/

/-- Model of `Peer._handle_bitfield`: record the remote bitmap and decide interest
(`if bitfield_bytes:` skips empty payloads). -/
def handle_bitfield (p : Peer) (pid : Nat) (m : Message) : Peer × List Output :=
  if m.payload = [] then (p, [])
  else
    match lookupA p.peer_states pid with
    | none => (p, [])
    | some _ =>
      let pieces_they_have := (parse_bitfield m.payload p.num_pieces).toFinset
      let interesting_pieces := pieces_they_have ∩ p.pieces_needed
      if interesting_pieces ≠ ∅ then
        ({ p with peer_states := updA p.peer_states pid (fun st => { st with bitfield := some m.payload, am_interested := true }) },
          send_interested p pid)
      else
        ({ p with peer_states := updA p.peer_states pid (fun st => { st with bitfield := some m.payload, am_interested := false }) },
          send_not_interested p pid)

/-- Model of `Peer._handle_interested`. -/
def handle_interested (p : Peer) (pid : Nat) : Peer × List Output :=
  ({ p with peer_states := updA p.peer_states pid (fun st => { st with peer_interested := true }) }, [])

/-- Model of `Peer._handle_not_interested`. -/
def handle_not_interested (p : Peer) (pid : Nat) : Peer × List Output :=
  ({ p with peer_states := updA p.peer_states pid (fun st => { st with peer_interested := false }) }, [])

/-- Model of `Peer._handle_choke`: note it clears the session's `pending_request`
field but **not** the swarm-level `pending_requests` map entry. -/
def handle_choke (p : Peer) (pid : Nat) : Peer × List Output :=
  ({ p with peer_states := updA p.peer_states pid (fun st => { st with peer_choking := true, pending_request := none }) }, [])

/-- Model of `random.choice(list(s))` on a set, driven by an oracle index. -/
def choiceFinset (s : Finset Nat) (oracle : Nat) : Nat :=
  (s.sort (· ≤ ·)).getD (oracle % s.card) 0

/-- Model of `Peer._request_piece`: pick a random needed piece this neighbor has
(no exclusion of pieces outstanding at other sessions), unless a request
is already pending with this neighbor. -/
def request_piece (p : Peer) (pid : Nat) (oracle : Nat) : Peer × List Output :=
  match lookupA p.peer_states pid with
  | none => (p, [])
  | some st =>
    match st.bitfield with
    | none => (p, [])
    | some bf =>
      if bf = [] then (p, [])  -- `if not state.bitfield:` (empty bytearray is falsy)
      else
        let peer_pieces := (parse_bitfield bf p.num_pieces).toFinset
        let needed_from_peer := peer_pieces ∩ p.pieces_needed
        if needed_from_peer = ∅ then
          ({ p with peer_states := updA p.peer_states pid (fun s => { s with am_interested := false }) },
            send_not_interested p pid)
        else if (lookupA p.pending_requests pid).isSome then (p, [])
        else
          let piece_index := choiceFinset needed_from_peer oracle
          ({ p with
              pending_requests := setA p.pending_requests pid piece_index,
              peer_states := updA p.peer_states pid (fun s => { s with pending_request := some piece_index }) },
            [⟨pid, .request piece_index⟩])

/-- Model of `Peer._handle_unchoke`: clear `peer_choking`, then request a piece if
interested. -/
def handle_unchoke (p : Peer) (pid : Nat) (oracle : Nat) : Peer × List Output :=
  match lookupA p.peer_states pid with
  | none => (p, [])
  | some st =>
    let p1 := { p with peer_states := updA p.peer_states pid (fun s => { s with peer_choking := false }) }
    if st.am_interested then request_piece p1 pid oracle else (p1, [])

/-- Model of `Peer._handle_have`: set the bit in the remote bitmap (when one is
recorded and non-empty) and upgrade interest lazily. -/
def handle_have (p : Peer) (pid : Nat) (m : Message) : Peer × List Output :=
  match m.get_piece_index with
  | none => (p, [])
  | some piece_index =>
    match lookupA p.peer_states pid with
    | none => (p, [])
    | some st =>
      let p1 := { p with peer_states := updA p.peer_states pid (fun s => { s with bitfield :=
            match s.bitfield with
            | some bf => if bf ≠ [] then some (set_piece bf piece_index) else some bf
            | none => none }) }
      if piece_index ∈ p.pieces_needed ∧ st.am_interested = false then
        ({ p1 with peer_states := updA p1.peer_states pid (fun s => { s with am_interested := true }) },
          send_interested p pid)
      else (p1, [])

/-- Model of `Peer._handle_request`: serve a piece only when the requester is
unchoked and the piece is possessed; count the bytes uploaded. -/
def handle_request (p : Peer) (pid : Nat) (m : Message) (elapsed : ℚ) :
    Peer × List Output :=
  match m.get_piece_index with
  | none => (p, [])
  | some piece_index =>
    match lookupA p.peer_states pid with
    | none => (p, [])
    | some st =>
      if st.am_choking then (p, [])
      else if piece_index ∉ p.fm_pieces_have then (p, [])
      else
        match read_piece p piece_index with
        | none => (p, [])
        | some data =>
          if data.length ≠ 0 then  -- `if piece_data:`
            ({ p with peer_states := updA p.peer_states pid (fun s => { s with
                  bytes_uploaded := s.bytes_uploaded + data.length,
                  upload_rate := ((s.bytes_uploaded + data.length : Nat) : ℚ) /
                    max 1 elapsed }) },
              [⟨pid, .piece piece_index data⟩])
          else (p, [])

/-! ### The piece write path (`Peer._handle_piece` and `_update_interests`) -/

/-- One iteration of the `_update_interests` loop body for session `pid`
currently in state `st`. -/
def update_interest_one (p : Peer) (pid : Nat) (st : PeerState) : Peer × List Output :=
  match st.bitfield with
  | none => (p, [])
  | some bf =>
    if bf = [] then (p, [])  -- `if state.bitfield:` (empty bytearray is falsy)
    else
      let peer_pieces := (parse_bitfield bf p.num_pieces).toFinset
      let interesting_pieces := peer_pieces ∩ p.pieces_needed
      if interesting_pieces ≠ ∅ ∧ st.am_interested = false then
        ({ p with peer_states := updA p.peer_states pid (fun s => { s with am_interested := true }) },
          send_interested p pid)
      else if interesting_pieces = ∅ ∧ st.am_interested = true then
        ({ p with peer_states := updA p.peer_states pid (fun s => { s with am_interested := false }) },
          send_not_interested p pid)
      else (p, [])

/-- Model of `Peer._update_interests`: walk the sessions in dict order, re-deciding
interest from each recorded remote bitmap. -/
def update_interests (p : Peer) : Peer × List Output :=
  (p.peer_states.map Prod.fst).foldl
    (fun acc pid =>
      match lookupA acc.1.peer_states pid with
      | none => acc
      | some st =>
        let r := update_interest_one acc.1 pid st
        (r.1, acc.2 ++ r.2))
    (p, [])

/-- Model of `Peer._remove_peer`: drop the connection, the session state, the
preferred-neighbors membership and the optimistic-unchoke mark.  The
swarm-level `pending_requests` entry is **not** removed. -/
def remove_peer (p : Peer) (pid : Nat) : Peer :=
  { p with
    connections := p.connections.erase pid,
    peer_states := eraseA p.peer_states pid,
    preferred_neighbors := p.preferred_neighbors.erase pid,
    optimistic_unchoked :=
      if p.optimistic_unchoked = some pid then none else p.optimistic_unchoked }

/-- Tail of `Peer._handle_piece` after a successful `write_piece`:
refresh possession and the needed/bitmap copies, broadcast have,
re-decide interests (`_update_interests`), mark completion, and request
the next piece from the same neighbor when still unchoked and
interested. -/
def piece_write_success (p2 : Peer) (pid piece_index oracle : Nat)
    (pieces_have' : Finset Nat) : Peer × List Output :=
  let p3 := { p2 with
    fm_pieces_have := pieces_have',
    pieces_needed := Finset.range p2.num_pieces \ pieces_have',
    my_bitfield := set_piece p2.my_bitfield piece_index }
  let outs1 := broadcast_have p3 piece_index
  let r4 := update_interests p3
  let p5 := if r4.1.fm_pieces_have.card = r4.1.num_pieces then
      { r4.1 with has_file := true } else r4.1
  match lookupA p5.peer_states pid with
  | some st' =>
    if st'.peer_choking = false ∧ st'.am_interested = true then
      let r6 := request_piece p5 pid oracle
      (r6.1, outs1 ++ r4.2 ++ r6.2)
    else (p5, outs1 ++ r4.2)
  | none => (p5, outs1 ++ r4.2)

/-- Model of `Peer._handle_piece`: clear the pending request, count the bytes, try
to store the piece; on a successful write run `piece_write_success`.
`write_piece`'s `ValueError` (out-of-range index) escapes the handler
thread, whose cleanup removes the peer. -/
def handle_piece (p : Peer) (pid : Nat) (m : Message) (oracle : Nat) (elapsed : ℚ) :
    Peer × List Output :=
  match m.get_piece_index, m.get_piece_data with
  | some piece_index, some data =>
    let p1 := { p with pending_requests := eraseA p.pending_requests pid }
    let p2 := { p1 with peer_states := updA p1.peer_states pid (fun st =>
        { st with
          pending_request := none,
          bytes_downloaded := st.bytes_downloaded + data.length,
          download_rate := ((st.bytes_downloaded + data.length : Nat) : ℚ) / max 1 elapsed }) }
    match write_piece p2.fm_pieces_have p2.file_size p2.piece_size piece_index data with
    | none => (remove_peer p2 pid, [])
    | some res =>
      if res.ok = false then (p2, [])
      else piece_write_success p2 pid piece_index oracle res.pieces_have
  | _, _ => (p, [])

/-! ### Dispatch (`Peer._process_message`) -/

/-- Model of `Peer._process_message`: look up the session (silently drop the frame
when there is none) and dispatch on the message type. -/
def process_message (p : Peer) (pid : Nat) (m : Message) (oracle : Nat) (elapsed : ℚ) :
    Peer × List Output :=
  match lookupA p.peer_states pid with
  | none => (p, [])
  | some _ =>
    match m.type_name with
    | .bitfield => handle_bitfield p pid m
    | .interested => handle_interested p pid
    | .not_interested => handle_not_interested p pid
    | .choke => handle_choke p pid
    | .unchoke => handle_unchoke p pid oracle
    | .have => handle_have p pid m
    | .request => handle_request p pid m elapsed
    | .piece => handle_piece p pid m oracle elapsed

/-! ### Connection setup and the scheduler bodies -/

/-- A fresh `PeerState(peer_id)` (all dataclass defaults). -/
def initPeerState (pid : Nat) : PeerState := { peer_id := pid }

/-- Model of `Peer._handle_incoming_connection` / `_handle_outgoing_connection`:
register the connection and session, then send our bitfield. -/
def handle_new_connection (p : Peer) (pid : Nat) : Peer × List Output :=
  let p1 := { p with
    connections := if pid ∈ p.connections then p.connections else p.connections ++ [pid],
    peer_states := setA p.peer_states pid (initPeerState pid) }
  (p1, [⟨pid, .bitfieldMsg p1.my_bitfield⟩])

/-- Sort key for the leecher branch: descending `download_rate`
(`sort(key=..., reverse=True)`, stable). -/
def rateLe (a b : Nat × PeerState) : Bool :=
  decide (b.2.download_rate ≤ a.2.download_rate)

/-- The sessions with `peer_interested` (in dict order). -/
def interestedList (p : Peer) : List (Nat × PeerState) :=
  p.peer_states.filter fun q => q.2.peer_interested

/-- Model of `_send_choke` over a list of peer ids, accumulating outputs. -/
def sendChokeAll (p : Peer) (pids : List Nat) : Peer × List Output :=
  pids.foldl (fun acc pid =>
    let r := send_choke acc.1 pid
    (r.1, acc.2 ++ r.2)) (p, [])

/-- Model of `_send_unchoke` over a list of peer ids, accumulating outputs. -/
def sendUnchokeAll (p : Peer) (pids : List Nat) : Peer × List Output :=
  pids.foldl (fun acc pid =>
    let r := send_unchoke acc.1 pid
    (r.1, acc.2 ++ r.2)) (p, [])

/-- Model of `Peer._recalculate_preferred_neighbors`.  The seeder branch shuffles
(`shuffled` is the oracle permutation of the interested list); the leecher
branch stable-sorts by the stored cumulative `download_rate`, descending.
Python iterates the two set differences in unordered-set order; they are
modelled in deterministic list order (no property depends on emission
order, and the per-peer state effects are order-independent). -/
def recalc_preferred (p : Peer) (shuffled : List (Nat × PeerState)) : Peer × List Output :=
  let interested_peers := interestedList p
  if interested_peers = [] then (p, [])
  else
    let new_preferred : List Nat :=
      if p.has_file then (shuffled.take p.k).map Prod.fst
      else ((interested_peers.mergeSort rateLe).take p.k).map Prod.fst
    let toChoke := p.preferred_neighbors.filter
      (fun pid => pid ∉ new_preferred ∧ p.optimistic_unchoked ≠ some pid)
    let toUnchoke := new_preferred.filter (fun pid => pid ∉ p.preferred_neighbors)
    let r1 := sendChokeAll p toChoke
    let r2 := sendUnchokeAll r1.1 toUnchoke
    ({ r2.1 with preferred_neighbors := new_preferred }, r1.2 ++ r2.2)

/-- Model of `Peer._select_optimistic_unchoked`: among the choked, interested,
non-preferred sessions pick one at random; first re-choke the previous
optimistic choice if it is not currently preferred. -/
def select_optimistic (p : Peer) (oracle : Nat) : Peer × List Output :=
  let candidates := (p.peer_states.filter (fun q =>
      q.2.peer_interested = true ∧ q.2.am_choking = true ∧
        q.1 ∉ p.preferred_neighbors)).map Prod.fst
  if candidates = [] then (p, [])
  else
    let r1 :=
      match p.optimistic_unchoked with
      | some prev =>
        if prev ∉ p.preferred_neighbors then send_choke p prev else (p, [])
      | none => (p, [])
    let chosen := candidates.getD (oracle % candidates.length) 0
    let r2 := send_unchoke r1.1 chosen
    ({ r2.1 with optimistic_unchoked := some chosen }, r1.2 ++ r2.2)

/-! ### Initial state and the step relation -/

/-- Startup configuration of one peer (from Common.cfg and PeerInfo.cfg). -/
structure Config where
  peer_id : Nat
  k : Nat
  file_size : Nat
  piece_size : Nat
  has_file : Bool
  storage : Nat → List Nat

/-- Model of `Peer.__init__` / `FileManager.__init__`: a seeder starts possessing
every piece, a leecher none. -/
def initPeer (c : Config) : Peer :=
  let n := numPieces c.file_size c.piece_size
  let have0 : Finset Nat := if c.has_file then Finset.range n else ∅
  { peer_id := c.peer_id
    k := c.k
    num_pieces := n
    file_size := c.file_size
    piece_size := c.piece_size
    has_file := c.has_file
    storage := c.storage
    fm_pieces_have := have0
    pieces_needed := Finset.range n \ have0
    my_bitfield := create_bitfield n (have0.sort (· ≤ ·))
    connections := []
    peer_states := []
    pending_requests := []
    preferred_neighbors := []
    optimistic_unchoked := none }

/-- What caused a step: an inbound frame on a session, one of the two
scheduler bodies, a new connection, or a session teardown. -/
inductive Label where
  | msg (pid : Nat) (m : Message)
  | recalcTick
  | optTick
  | connect (pid : Nat)
  | remove (pid : Nat)
  deriving DecidableEq, Repr

/-- One step: its label and the frames it sent. -/
structure Event where
  label : Label
  outputs : List Output
  deriving DecidableEq, Repr

/-- The interleaving semantics of the peer: inbound frames processed in
arrival order per session, the scheduler bodies running atomically under
the swarm lock, connection creation and teardown. -/
inductive Step : Peer → Event → Peer → Prop where
  | msg (p : Peer) (pid : Nat) (m : Message) (oracle : Nat) (elapsed : ℚ) :
      Step p ⟨.msg pid m, (process_message p pid m oracle elapsed).2⟩
        (process_message p pid m oracle elapsed).1
  | recalcTick (p : Peer) (shuffled : List (Nat × PeerState))
      (hperm : shuffled.Perm (interestedList p)) :
      Step p ⟨.recalcTick, (recalc_preferred p shuffled).2⟩
        (recalc_preferred p shuffled).1
  | optTick (p : Peer) (oracle : Nat) :
      Step p ⟨.optTick, (select_optimistic p oracle).2⟩
        (select_optimistic p oracle).1
  | connect (p : Peer) (pid : Nat) :
      Step p ⟨.connect pid, (handle_new_connection p pid).2⟩
        (handle_new_connection p pid).1
  | remove (p : Peer) (pid : Nat) :
      Step p ⟨.remove pid, []⟩ (remove_peer p pid)

/-- A finite execution trace. -/
inductive Path : Peer → List Event → Peer → Prop where
  | nil (p : Peer) : Path p [] p
  | cons {p q r : Peer} {e : Event} {es : List Event} :
      Step p e q → Path q es r → Path p (e :: es) r

/-- States the peer engine can reach from startup. -/
def Reachable (c : Config) (p : Peer) : Prop :=
  ∃ tr, Path (initPeer c) tr p

/-! ## Theorems -/

/-- C7: for every file size `F > 0` and piece size `P > 0`, the computed
number of pieces `N` equals `⌈F/P⌉` (characterized by `(N-1)·P < F ≤ N·P`),
every piece `0 ≤ i ≤ N-2` has size exactly `P`, and the last piece has
size `F mod P` when `F` is not a multiple of `P` and size `P` (not 0)
otherwise. -/
theorem C7_piece_geometry (F P : Nat) (hF : 0 < F) (hP : 0 < P) :
    F ≤ numPieces F P * P ∧
    (numPieces F P - 1) * P < F ∧
    (∀ i, i + 1 < numPieces F P →
      (get_piece_info F P i).map PieceInfo.size = some P) ∧
    (get_piece_info F P (numPieces F P - 1)).map PieceInfo.size =
      some (if F % P = 0 then P else F % P) := by
  have hdm : P * ((F + P - 1) / P) + (F + P - 1) % P = F + P - 1 :=
    Nat.div_add_mod _ _
  have hr : (F + P - 1) % P < P := Nat.mod_lt _ hP
  have hpos : 0 < numPieces F P := by
    rw [numPieces]; exact Nat.div_pos (by omega) hP
  have hNP : numPieces F P * P = P * ((F + P - 1) / P) := by
    rw [numPieces, Nat.mul_comm]
  have hsub : (numPieces F P - 1) * P + P = numPieces F P * P := by
    have h1 : numPieces F P - 1 + 1 = numPieces F P := Nat.succ_pred_eq_of_pos hpos
    calc (numPieces F P - 1) * P + P = (numPieces F P - 1 + 1) * P := by ring
    _ = numPieces F P * P := by rw [h1]
  refine ⟨by omega, by omega, ?_, ?_⟩
  · intro i hi
    have h1 : i < numPieces F P := by omega
    have h2 : ¬ (i = numPieces F P - 1) := by omega
    simp [get_piece_info, h1, h2]
  · have h1 : numPieces F P - 1 < numPieces F P := by omega
    simp only [get_piece_info, h1, if_true, Option.map_some]
    simp [lastPieceSize, hF]

/-- C7 witness: the geometry theorem applied at `F = 32`, `P = 16`
(an exact multiple: two pieces, the last of size 16, not 0). -/
theorem C7_piece_geometry_witness :
    (get_piece_info 32 16 (numPieces 32 16 - 1)).map PieceInfo.size =
      some (if 32 % 16 = 0 then 16 else 32 % 16) :=
  (C7_piece_geometry 32 16 (by decide) (by decide)).2.2.2

/-- C9: writing an already-possessed piece is a no-op, not an error —
`write_piece` returns `False` without raising, `pieces_have` is unchanged
and no piece file is rewritten; and a successful write adds exactly that
one index to `pieces_have`. -/
theorem C9_duplicate_write_noop (ph : Finset Nat) (F P i : Nat) (data : List Nat) :
    (i ∈ ph → write_piece ph F P i data = some ⟨false, ph, false⟩) ∧
    (∀ r, write_piece ph F P i data = some r → r.ok = true →
      i ∉ ph ∧ r.pieces_have = insert i ph ∧
        ∀ j, j ∈ r.pieces_have ↔ j = i ∨ j ∈ ph) := by
  constructor
  · intro hmem
    simp [write_piece, hmem]
  · intro r hr hok
    by_cases hmem : i ∈ ph
    · simp [write_piece, hmem] at hr
      rw [← hr] at hok
      simp at hok
    · have hval : r = ⟨true, insert i ph, true⟩ := by
        simp only [write_piece, hmem, if_false] at hr
        cases hinfo : get_piece_info F P i with
        | none => rw [hinfo] at hr; simp at hr
        | some info =>
          rw [hinfo] at hr
          by_cases hsz : data.length = info.size
          · simp [hsz] at hr
            exact hr.symm
          · simp [hsz] at hr
            rw [← hr] at hok
            simp at hok
      subst hval
      exact ⟨hmem, rfl, fun j => by simp⟩

/-- C9 witness: the duplicate branch at a concrete state (piece 0 is
already possessed). -/
theorem C9_duplicate_write_noop_witness :
    write_piece ({0} : Finset Nat) 32 16 0 [1, 2, 3] = some ⟨false, {0}, false⟩ :=
  (C9_duplicate_write_noop {0} 32 16 0 [1, 2, 3]).1 (by decide)

/-- C1 counterexample: the claim says a choke frame with a non-empty
payload is rejected and no `Message` value is produced; in the code,
`Message.deserialize` on the frame `00 00 00 02 | 00 | 63` (type choke,
one payload byte) produces a `Message` with that non-empty payload. -/
theorem C1_counterexample_choke_payload_accepted :
    ∃ m, Message.deserialize [0, 0, 0, 2, 0, 99] = .ok m ∧
      m.type_name = .choke ∧ m.payload = [99] :=
  ⟨⟨0, .choke, [99]⟩, rfl, rfl, rfl⟩

/-- C1 (amended): `Message.deserialize` performs no per-type payload
validation.  It rejects only frames shorter than 5 bytes or with a type
byte outside 0..7; for any recognised type byte it produces a `Message`
carrying the raw payload slice `data[5 : 5 + L - 1]` — in particular
non-empty choke/unchoke/interested/not_interested payloads and
have/request payloads of any length or index are all accepted.  Per-type
checking is deferred to accessors such as `get_piece_index`. -/
theorem C1_amended_deserialize_unvalidated (data : List Nat) :
    (data.length < 5 → Message.deserialize data = .error "Message too short") ∧
    (5 ≤ data.length → MESSAGE_ID_TO_TYPE (data.getD 4 0) = none →
      Message.deserialize data = .error "Unknown message type ID") ∧
    (∀ t, 5 ≤ data.length → MESSAGE_ID_TO_TYPE (data.getD 4 0) = some t →
      Message.deserialize data =
        .ok ⟨data.getD 4 0, t,
          (data.drop 5).take (beWord (data.take 4) - 1)⟩) := by
  have hgd : data.getD (MESSAGE_LENGTH_LEN) 0 = data.getD 4 0 := rfl
  refine ⟨?_, ?_, ?_⟩
  · intro h
    rw [Message.deserialize, if_pos (by simpa [MESSAGE_LENGTH_LEN, MESSAGE_TYPE_LEN] using h)]
  · intro h hnone
    rw [Message.deserialize, if_neg (by simp only [MESSAGE_LENGTH_LEN, MESSAGE_TYPE_LEN]; omega)]
    simp only [hgd, hnone]
  · intro t h hsome
    rw [Message.deserialize, if_neg (by simp only [MESSAGE_LENGTH_LEN, MESSAGE_TYPE_LEN]; omega)]
    simp only [hgd, hsome, MESSAGE_LENGTH_LEN, MESSAGE_TYPE_LEN]

/-- C1 amended witness: an unchoke frame with a 3-byte payload decodes to
a `Message` (payload unvalidated). -/
theorem C1_amended_deserialize_unvalidated_witness :
    Message.deserialize [0, 0, 0, 4, 1, 7, 8, 9] =
      .ok ⟨1, .unchoke, [7, 8, 9]⟩ := by
  have h := (C1_amended_deserialize_unvalidated [0, 0, 0, 4, 1, 7, 8, 9]).2.2
    MsgType.unchoke (by decide) (by decide)
  simpa using h

/-! ### Bitfield packing lemmas (towards C8) -/

/-- Reading bit `i` of a bitmap: bit `(7 - i mod 8)` of byte `⌊i/8⌋`
(MSB-first packing), `0` when the byte index is out of range. -/
def bitAt (bf : List Nat) (i : Nat) : Bool :=
  (bf.getD (i / 8) 0).testBit (7 - i % 8)

/-- Byte-level truthiness of `byte & (1 << k)` agrees with `testBit`. -/
theorem and_one_shift_ne_zero (a k : Nat) :
    (a &&& (1 <<< k) ≠ 0) ↔ a.testBit k = true := by
  rw [Nat.one_shiftLeft, Nat.and_two_pow]
  cases h : a.testBit k
  · simp
  · simp [(Nat.two_pow_pos k).ne']

theorem div8_lt {i N : Nat} (h : i < N) : i / 8 < (N + 7) / 8 := by
  have h1 : (i + 8) / 8 = i / 8 + 1 := Nat.add_div_right i (by norm_num)
  have h2 : (i + 8) / 8 ≤ (N + 7) / 8 := Nat.div_le_div_right (by omega)
  omega

theorem getD_set_cases (l : List Nat) (i j v : Nat) :
    (l.set i v).getD j 0 = if i = j ∧ i < l.length then v else l.getD j 0 := by
  rw [List.getD_eq_getElem?_getD, List.getD_eq_getElem?_getD, List.getElem?_set]
  by_cases h1 : i = j
  · subst h1
    by_cases h2 : i < l.length
    · simp [h2]
    · simp [h2, List.getElem?_eq_none (show l.length ≤ i by omega)]
  · simp [h1]

theorem length_create_fold (N : Nat) (l : List Nat) (bf : List Nat) :
    (l.foldl (fun bf i => if i < N then setPieceBit bf i else bf) bf).length =
      bf.length := by
  induction l generalizing bf with
  | nil => rfl
  | cons x xs ih =>
    rw [List.foldl_cons, ih]
    by_cases hx : x < N <;> simp [hx, setPieceBit, List.length_set]

theorem bitAt_setPieceBit (bf : List Nat) (i j : Nat) (h : i / 8 < bf.length) :
    bitAt (setPieceBit bf i) j = (bitAt bf j || decide (j = i)) := by
  have hi8 : i % 8 < 8 := Nat.mod_lt _ (by norm_num)
  have hj8 : j % 8 < 8 := Nat.mod_lt _ (by norm_num)
  have hieq := Nat.div_add_mod i 8
  have hjeq := Nat.div_add_mod j 8
  unfold bitAt setPieceBit
  rcases eq_or_ne (i / 8) (j / 8) with hb | hb
  · rw [getD_set_cases, if_pos ⟨hb, h⟩, ← hb, Nat.testBit_or, Nat.one_shiftLeft,
      Nat.testBit_two_pow]
    congr 1
    rw [decide_eq_decide]
    omega
  · rw [getD_set_cases, if_neg (by tauto)]
    have hne : ¬ (j = i) := by omega
    simp [hne]

theorem bitAt_create_fold (N : Nat) (l : List Nat) (bf : List Nat)
    (hlen : bf.length = (N + 7) / 8) (j : Nat) :
    bitAt (l.foldl (fun bf i => if i < N then setPieceBit bf i else bf) bf) j =
      (bitAt bf j || (decide (j < N) && decide (j ∈ l))) := by
  induction l generalizing bf with
  | nil => simp
  | cons x xs ih =>
    rw [List.foldl_cons]
    by_cases hx : x < N
    · rw [if_pos hx, ih _ (by rw [setPieceBit, List.length_set]; exact hlen),
        bitAt_setPieceBit bf x j (by rw [hlen]; exact div8_lt hx)]
      by_cases hj : j = x
      · subst hj; simp [hx]
      · simp [hj, Bool.or_assoc]
    · rw [if_neg hx, ih _ hlen]
      by_cases hj : j = x
      · subst hj; simp [hx]
      · simp [hj]

theorem bitAt_replicate_zero (n j : Nat) : bitAt (List.replicate n 0) j = false := by
  unfold bitAt
  rw [List.getD_eq_getElem?_getD]
  rcases h : (List.replicate n (0 : Nat))[j / 8]? with _ | v
  · simp [Nat.zero_testBit]
  · have hv : v = 0 := by
      have := List.getElem?_mem h
      simpa [List.eq_of_mem_replicate] using List.eq_of_mem_replicate this
    subst hv
    simp [Nat.zero_testBit]

theorem bitAt_create_bitfield (N : Nat) (l : List Nat) (j : Nat) :
    bitAt (create_bitfield N l) j = (decide (j < N) && decide (j ∈ l)) := by
  unfold create_bitfield
  rw [bitAt_create_fold N l _ (by simp) j, bitAt_replicate_zero]
  simp

theorem length_create_bitfield (N : Nat) (l : List Nat) :
    (create_bitfield N l).length = (N + 7) / 8 := by
  unfold create_bitfield
  rw [length_create_fold]
  simp

theorem mem_parse_bitfield (bf : List Nat) (N i : Nat) :
    i ∈ parse_bitfield bf N ↔ i < N ∧ i / 8 < bf.length ∧ bitAt bf i = true := by
  unfold parse_bitfield
  simp only [List.mem_filter, List.mem_range, decide_eq_true_eq]
  unfold bitAt
  constructor
  · rintro ⟨h1, h2, h3⟩
    exact ⟨h1, h2, (and_one_shift_ne_zero _ _).mp h3⟩
  · rintro ⟨h1, h2, h3⟩
    exact ⟨h1, ⟨h2, (and_one_shift_ne_zero _ _).mpr h3⟩⟩

/-- C8: for every `N > 0` and set of indices all below `N`, parsing the
encoding returns exactly that set; the encoding has length `⌈N/8⌉`; bit
`i` of the bitmap — bit `(7 − i mod 8)` of byte `⌊i/8⌋`, i.e. MSB-first —
is set exactly for encoded indices; and every bit position `≥ N`
(in particular the unused low bits of the last byte) is zero. -/
theorem C8_bitfield_roundtrip (N : Nat) (l : List Nat) (hlt : ∀ x ∈ l, x < N) :
    (parse_bitfield (create_bitfield N l) N).toFinset = l.toFinset ∧
    (create_bitfield N l).length = (N + 7) / 8 ∧
    (∀ i, i < N → (bitAt (create_bitfield N l) i = true ↔ i ∈ l)) ∧
    (∀ j, N ≤ j → bitAt (create_bitfield N l) j = false) := by
  refine ⟨?_, length_create_bitfield N l, ?_, ?_⟩
  · ext x
    simp only [List.mem_toFinset]
    rw [mem_parse_bitfield]
    constructor
    · rintro ⟨h1, _, h3⟩
      rw [bitAt_create_bitfield] at h3
      simpa [h1] using h3
    · intro hx
      have hxN := hlt x hx
      refine ⟨hxN, ?_, ?_⟩
      · rw [length_create_bitfield]
        exact div8_lt hxN
      · rw [bitAt_create_bitfield]
        simp [hxN, hx]
  · intro i hi
    rw [bitAt_create_bitfield]
    simp [hi]
  · intro j hj
    rw [bitAt_create_bitfield]
    simp [show ¬ (j < N) by omega]

/-- C8 witness: the round trip at `N = 9` (a 2-byte bitmap) with pieces
`{0, 8}` — the spec's own boundary scenario. -/
theorem C8_bitfield_roundtrip_witness :
    (parse_bitfield (create_bitfield 9 [8, 0]) 9).toFinset =
      ([8, 0] : List Nat).toFinset :=
  (C8_bitfield_roundtrip 9 [8, 0] (by decide)).1

/-! ### Association-list lemmas -/

theorem lookupA_cons {α : Type} (ka : Nat) (va : α) (rest : List (Nat × α)) (k : Nat) :
    lookupA ((ka, va) :: rest) k = if ka = k then some va else lookupA rest k := rfl

theorem lookupA_updA {α : Type} (l : List (Nat × α)) (k : Nat) (f : α → α) (k' : Nat) :
    lookupA (updA l k f) k' =
      if k' = k then (lookupA l k').map f else lookupA l k' := by
  induction l with
  | nil => by_cases h : k' = k <;> simp [updA, lookupA, h]
  | cons a rest ih =>
    obtain ⟨ka, va⟩ := a
    simp only [updA, List.map_cons] at ih ⊢
    by_cases h1 : ka = k
    · rw [if_pos (show (ka, va).1 = k from h1), lookupA_cons, lookupA_cons]
      by_cases h2 : ka = k'
      · have hk : k' = k := by omega
        rw [if_pos h2, if_pos hk, if_pos h2]
        simp
      · have hk : ¬ (k' = k) := by omega
        rw [if_neg h2, if_neg hk, if_neg h2, ih, if_neg hk]
    · rw [if_neg (show ¬ (ka, va).1 = k from h1), lookupA_cons, lookupA_cons]
      by_cases h2 : ka = k'
      · have hk : ¬ (k' = k) := by omega
        rw [if_pos h2, if_neg hk, if_pos h2]
      · by_cases hk : k' = k
        · rw [if_neg h2, if_pos hk, if_neg h2, ih, if_pos hk]
        · rw [if_neg h2, if_neg hk, if_neg h2, ih, if_neg hk]

theorem lookupA_append {α : Type} (l1 l2 : List (Nat × α)) (k : Nat) :
    lookupA (l1 ++ l2) k =
      match lookupA l1 k with
      | some v => some v
      | none => lookupA l2 k := by
  induction l1 with
  | nil => simp [lookupA]
  | cons a rest ih =>
    obtain ⟨ka, va⟩ := a
    by_cases h : ka = k <;> simp [lookupA, h, ih]

theorem lookupA_setA {α : Type} (l : List (Nat × α)) (k : Nat) (v : α) (k' : Nat) :
    lookupA (setA l k v) k' = if k' = k then some v else lookupA l k' := by
  unfold setA
  by_cases hs : (lookupA l k).isSome
  · rw [if_pos hs, lookupA_updA]
    by_cases h : k' = k
    · subst h
      obtain ⟨w, hw⟩ := Option.isSome_iff_exists.mp hs
      simp [hw]
    · simp [h]
  · rw [if_neg hs, lookupA_append]
    by_cases h : k' = k
    · subst h
      rw [Option.not_isSome_iff_eq_none] at hs
      simp [hs, lookupA]
    · cases hl : lookupA l k' <;> simp [lookupA, Ne.symm h, h, hl]

theorem lookupA_eraseA_ne {α : Type} (l : List (Nat × α)) (k k' : Nat) (h : k' ≠ k) :
    lookupA (eraseA l k) k' = lookupA l k' := by
  induction l with
  | nil => rfl
  | cons a rest ih =>
    obtain ⟨ka, va⟩ := a
    simp only [eraseA]
    by_cases h1 : ka = k
    · rw [if_pos h1, lookupA_cons, if_neg (fun hh => h ((hh.symm).trans h1 : k' = k))]
    · rw [if_neg h1, lookupA_cons, lookupA_cons, ih]

/-- C2: for every session and inbound request frame, if `am_choking` holds
the request is ignored silently — the state (so also the bytes-uploaded
counter) is unchanged and no frame at all is emitted; a piece frame is
emitted in response only to the requesting session, only when
`am_choking` is false and the owner possesses the piece, and then the
piece's length is added to that session's bytes-uploaded counter. -/
theorem C2_request_ignored_when_choking (p : Peer) (pid : Nat) (m : Message)
    (elapsed : ℚ) (st : PeerState) (hst : lookupA p.peer_states pid = some st) :
    (st.am_choking = true → handle_request p pid m elapsed = (p, [])) ∧
    (∀ q i data, (⟨q, .piece i data⟩ : Output) ∈ (handle_request p pid m elapsed).2 →
      q = pid ∧ st.am_choking = false ∧ i ∈ p.fm_pieces_have ∧
        data = p.storage i ∧
        ∃ st', lookupA (handle_request p pid m elapsed).1.peer_states pid = some st' ∧
          st'.bytes_uploaded = st.bytes_uploaded + (p.storage i).length) := by
  constructor
  · intro hch
    unfold handle_request
    cases hidx : m.get_piece_index with
    | none => rfl
    | some i => rw [hst]; simp [hch]
  · intro q i data
    unfold handle_request
    cases hidx : m.get_piece_index with
    | none => intro hmem; simp at hmem
    | some i0 =>
      rw [hst]
      dsimp only
      by_cases hch : st.am_choking = true
      · rw [if_pos hch]
        intro hmem; simp at hmem
      · rw [Bool.not_eq_true] at hch
        rw [if_neg (by simp [hch])]
        by_cases hpos : i0 ∈ p.fm_pieces_have
        · rw [if_neg (by simp [hpos]),
            show read_piece p i0 = some (p.storage i0) from by simp [read_piece, hpos]]
          dsimp only
          by_cases hlen : (p.storage i0).length ≠ 0
          · rw [if_pos hlen]
            intro hmem
            simp only [List.mem_singleton, Output.mk.injEq, OutMsg.piece.injEq] at hmem
            obtain ⟨hq, hi, hdata⟩ := hmem
            subst hq; subst hi; subst hdata
            refine ⟨rfl, hch, hpos, rfl, ?_⟩
            rw [lookupA_updA, if_pos rfl, hst]
            exact ⟨_, rfl, rfl⟩
          · rw [if_neg hlen]
            intro hmem; simp at hmem
        · rw [if_pos (by simp [hpos])]
          intro hmem; simp at hmem

/-- Concrete peer used by the C2 witness: owns both pieces of a two-piece
file and has one freshly connected (still choked) session to peer 2. -/
def witnessPeerC2 : Peer :=
  { peer_id := 1
    k := 1
    num_pieces := 2
    file_size := 8
    piece_size := 4
    has_file := true
    storage := fun _ => [1, 2, 3, 4]
    fm_pieces_have := Finset.range 2
    pieces_needed := ∅
    my_bitfield := [192]
    connections := [2]
    peer_states := [(2, initPeerState 2)]
    pending_requests := []
    preferred_neighbors := []
    optimistic_unchoked := none }

/-- C2 witness: on the concrete peer, session 2 is choked, so an inbound
request for piece 0 is ignored with no output and no state change. -/
theorem C2_request_ignored_when_choking_witness :
    handle_request witnessPeerC2 2 ⟨6, .request, [0, 0, 0, 0]⟩ 0 = (witnessPeerC2, []) :=
  (C2_request_ignored_when_choking witnessPeerC2 2 ⟨6, .request, [0, 0, 0, 0]⟩ 0
    (initPeerState 2) rfl).1 rfl

/-- The selection pool the spec prescribes for request selection (§4.5):
(remote possession ∩ self-needed) minus the indices currently outstanding
at any **other** session.  Stated from the spec's words, for comparison
with the code's `request_piece`. -/
def specRequestCandidates (p : Peer) (pid : Nat) (bf : List Nat) : Finset Nat :=
  ((parse_bitfield bf p.num_pieces).toFinset ∩ p.pieces_needed) \
    ((p.pending_requests.filter (fun q => q.1 ≠ pid)).map Prod.snd).toFinset

/-- The random choice always lands inside the candidate set. -/
theorem choiceFinset_mem (s : Finset Nat) (oracle : Nat) (h : s ≠ ∅) :
    choiceFinset s oracle ∈ s := by
  unfold choiceFinset
  have hcard : 0 < s.card := Finset.card_pos.mpr (Finset.nonempty_iff_ne_empty.mpr h)
  have hlen : (s.sort (· ≤ ·)).length = s.card := Finset.length_sort _
  have hidx : oracle % s.card < (s.sort (· ≤ ·)).length := by
    rw [hlen]; exact Nat.mod_lt _ hcard
  rw [List.getD_eq_getElem?_getD, List.getElem?_eq_getElem hidx]
  simp only [Option.getD_some]
  have hm := List.getElem_mem hidx
  rwa [Finset.mem_sort] at hm

/-- Concrete peer for the C6 counterexample: one needed piece (index 0),
already outstanding at session 3, while session 2 also advertises it. -/
def witnessPeerC6 : Peer :=
  { peer_id := 1
    k := 1
    num_pieces := 1
    file_size := 4
    piece_size := 4
    has_file := false
    storage := fun _ => []
    fm_pieces_have := ∅
    pieces_needed := Finset.range 1
    my_bitfield := [0]
    connections := [2, 3]
    peer_states :=
      [(2, { initPeerState 2 with bitfield := some [128] }),
       (3, { initPeerState 3 with bitfield := some [128], pending_request := some 0 })]
    pending_requests := [(3, 0)]
    preferred_neighbors := []
    optimistic_unchoked := none }

/-- Behavior of `_request_piece` on a session with a recorded non-empty
remote bitmap, by cases on the candidate pool (remote ∩ needed) and on an
already-pending request (helper used by several results). -/
theorem request_piece_cases (p : Peer) (pid : Nat) (oracle : Nat)
    (st : PeerState) (bf : List Nat)
    (hst : lookupA p.peer_states pid = some st) (hbf : st.bitfield = some bf)
    (hne : bf ≠ []) :
    ((parse_bitfield bf p.num_pieces).toFinset ∩ p.pieces_needed = ∅ →
      request_piece p pid oracle =
        ({ p with peer_states := updA p.peer_states pid (fun s => { s with am_interested := false }) }, send_not_interested p pid)) ∧
    ((parse_bitfield bf p.num_pieces).toFinset ∩ p.pieces_needed ≠ ∅ →
      (lookupA p.pending_requests pid).isSome →
      request_piece p pid oracle = (p, [])) ∧
    ((parse_bitfield bf p.num_pieces).toFinset ∩ p.pieces_needed ≠ ∅ →
      lookupA p.pending_requests pid = none →
      choiceFinset ((parse_bitfield bf p.num_pieces).toFinset ∩ p.pieces_needed) oracle ∈
        (parse_bitfield bf p.num_pieces).toFinset ∩ p.pieces_needed ∧
      request_piece p pid oracle =
        ({ p with pending_requests := setA p.pending_requests pid (choiceFinset ((parse_bitfield bf p.num_pieces).toFinset ∩ p.pieces_needed) oracle), peer_states := updA p.peer_states pid (fun s => { s with pending_request := some (choiceFinset ((parse_bitfield bf p.num_pieces).toFinset ∩ p.pieces_needed) oracle) }) },
          [⟨pid, .request (choiceFinset
            ((parse_bitfield bf p.num_pieces).toFinset ∩ p.pieces_needed) oracle)⟩])) := by
  unfold request_piece
  rw [hst]
  dsimp only
  rw [hbf]
  dsimp only
  rw [if_neg (by simp [hne])]
  refine ⟨?_, ?_, ?_⟩
  · intro hempty
    rw [if_pos hempty]
  · intro hnonempty hpend
    rw [if_neg hnonempty, if_pos hpend]
  · intro hnonempty hpend
    rw [if_neg hnonempty, if_neg (by simp [hpend])]
    exact ⟨choiceFinset_mem _ oracle hnonempty, rfl⟩

/-- C6 counterexample: the claim's candidate pool (remote ∩ needed minus
indices outstanding at other sessions) is empty here, so the claim
requires not_interested and no request; the code's `_request_piece`
nevertheless sends `request(0)` to session 2 — it never subtracts the
indices outstanding at other sessions. -/
theorem C6_counterexample_outstanding_not_excluded :
    specRequestCandidates witnessPeerC6 2 [128] = ∅ ∧
    (request_piece witnessPeerC6 2 0).2 = [⟨2, .request 0⟩] := by
  have hset : (parse_bitfield [128] witnessPeerC6.num_pieces).toFinset ∩
      witnessPeerC6.pieces_needed = {0} := by decide
  have hchoice : choiceFinset ((parse_bitfield [128] witnessPeerC6.num_pieces).toFinset ∩
      witnessPeerC6.pieces_needed) 0 = 0 := by
    rw [hset]
    unfold choiceFinset
    rw [Finset.sort_singleton]
    rfl
  have hr := (request_piece_cases witnessPeerC6 2 0
      { initPeerState 2 with bitfield := some [128] } [128]
      rfl rfl (by decide)).2.2 (by decide) rfl
  refine ⟨by decide, ?_⟩
  rw [hr.2]
  rw [hchoice]

/-- C6 (amended): when a session becomes (interested ∧ unchoked ∧ no
pending request), the piece requested is drawn (uniformly, via the
`random.choice` oracle) from (remote possession ∩ self-needed) **without**
excluding indices outstanding at other sessions; if that intersection is
empty, not_interested is sent and `am_interested` cleared with no request;
and if a request is already pending with this same session, nothing
happens. -/
theorem C6_amended_request_selection (p : Peer) (pid : Nat) (oracle : Nat)
    (st : PeerState) (bf : List Nat)
    (hst : lookupA p.peer_states pid = some st) (hbf : st.bitfield = some bf)
    (hne : bf ≠ []) :
    ((parse_bitfield bf p.num_pieces).toFinset ∩ p.pieces_needed = ∅ →
      request_piece p pid oracle =
        ({ p with peer_states := updA p.peer_states pid (fun s => { s with am_interested := false }) }, send_not_interested p pid)) ∧
    ((parse_bitfield bf p.num_pieces).toFinset ∩ p.pieces_needed ≠ ∅ →
      (lookupA p.pending_requests pid).isSome →
      request_piece p pid oracle = (p, [])) ∧
    ((parse_bitfield bf p.num_pieces).toFinset ∩ p.pieces_needed ≠ ∅ →
      lookupA p.pending_requests pid = none →
      choiceFinset ((parse_bitfield bf p.num_pieces).toFinset ∩ p.pieces_needed) oracle ∈
        (parse_bitfield bf p.num_pieces).toFinset ∩ p.pieces_needed ∧
      request_piece p pid oracle =
        ({ p with pending_requests := setA p.pending_requests pid (choiceFinset ((parse_bitfield bf p.num_pieces).toFinset ∩ p.pieces_needed) oracle), peer_states := updA p.peer_states pid (fun s => { s with pending_request := some (choiceFinset ((parse_bitfield bf p.num_pieces).toFinset ∩ p.pieces_needed) oracle) }) },
          [⟨pid, .request (choiceFinset
            ((parse_bitfield bf p.num_pieces).toFinset ∩ p.pieces_needed) oracle)⟩])) :=
  request_piece_cases p pid oracle st bf hst hbf hne

/-- C6 amended witness: on the counterexample peer, session 2's pool
(remote ∩ needed) is nonempty and no request is pending with session 2,
so the chosen piece lies in the pool. -/
theorem C6_amended_request_selection_witness :
    choiceFinset ((parse_bitfield [128] witnessPeerC6.num_pieces).toFinset ∩
        witnessPeerC6.pieces_needed) 0 ∈
      (parse_bitfield [128] witnessPeerC6.num_pieces).toFinset ∩
        witnessPeerC6.pieces_needed :=
  ((C6_amended_request_selection witnessPeerC6 2 0
      { initPeerState 2 with bitfield := some [128] } [128]
      rfl rfl (by decide)).2.2 (by decide) rfl).1

/-! ### Scheduler lemmas (towards C4 and C5) -/

theorem send_choke_lookup_proj {β : Type} (f : PeerState → β)
    (hf : ∀ st b, f { st with am_choking := b } = f st) (p : Peer) (pid s : Nat) :
    (lookupA (send_choke p pid).1.peer_states s).map f =
      (lookupA p.peer_states s).map f := by
  unfold send_choke
  by_cases hc : pid ∈ p.connections
  · rw [if_pos hc]
    dsimp only
    rw [lookupA_updA]
    by_cases hs : s = pid
    · rw [if_pos hs]
      cases lookupA p.peer_states s <;> simp [hf]
    · rw [if_neg hs]
  · rw [if_neg hc]

theorem send_unchoke_lookup_proj {β : Type} (f : PeerState → β)
    (hf : ∀ st b, f { st with am_choking := b } = f st) (p : Peer) (pid s : Nat) :
    (lookupA (send_unchoke p pid).1.peer_states s).map f =
      (lookupA p.peer_states s).map f := by
  unfold send_unchoke
  by_cases hc : pid ∈ p.connections
  · rw [if_pos hc]
    dsimp only
    rw [lookupA_updA]
    by_cases hs : s = pid
    · rw [if_pos hs]
      cases lookupA p.peer_states s <;> simp [hf]
    · rw [if_neg hs]
  · rw [if_neg hc]

theorem sendChokeAll_lookup_proj {β : Type} (f : PeerState → β)
    (hf : ∀ st b, f { st with am_choking := b } = f st) (pids : List Nat) :
    ∀ (p : Peer) (outs : List Output) (s : Nat),
    (lookupA ((pids.foldl (fun acc pid =>
        let r := send_choke acc.1 pid
        (r.1, acc.2 ++ r.2)) (p, outs)).1.peer_states) s).map f =
      (lookupA p.peer_states s).map f := by
  induction pids with
  | nil => intro p outs s; rfl
  | cons x xs ih =>
    intro p outs s
    rw [List.foldl_cons]
    exact (ih _ _ s).trans (send_choke_lookup_proj f hf p x s)

theorem sendUnchokeAll_lookup_proj {β : Type} (f : PeerState → β)
    (hf : ∀ st b, f { st with am_choking := b } = f st) (pids : List Nat) :
    ∀ (p : Peer) (outs : List Output) (s : Nat),
    (lookupA ((pids.foldl (fun acc pid =>
        let r := send_unchoke acc.1 pid
        (r.1, acc.2 ++ r.2)) (p, outs)).1.peer_states) s).map f =
      (lookupA p.peer_states s).map f := by
  induction pids with
  | nil => intro p outs s; rfl
  | cons x xs ih =>
    intro p outs s
    rw [List.foldl_cons]
    exact (ih _ _ s).trans (send_unchoke_lookup_proj f hf p x s)

/-- The preferred-neighbor tick never touches any session's fields other
than `am_choking`: any projection ignoring `am_choking` is preserved.  In
particular no per-session download-byte counter is reset. -/
theorem recalc_lookup_proj {β : Type} (f : PeerState → β)
    (hf : ∀ st b, f { st with am_choking := b } = f st)
    (p : Peer) (shuffled : List (Nat × PeerState)) (s : Nat) :
    (lookupA (recalc_preferred p shuffled).1.peer_states s).map f =
      (lookupA p.peer_states s).map f := by
  unfold recalc_preferred
  by_cases hi : interestedList p = []
  · rw [if_pos hi]
  · rw [if_neg hi]
    dsimp only [sendChokeAll, sendUnchokeAll]
    exact (sendUnchokeAll_lookup_proj f hf _ _ _ s).trans
      (sendChokeAll_lookup_proj f hf _ _ _ s)

/-- The leecher branch of the preferred-neighbor tick: the new preferred
list is the first `k` peer ids of the interested sessions stably sorted by
stored cumulative `download_rate`, descending. -/
theorem recalc_preferred_leecher (p : Peer) (shuffled : List (Nat × PeerState))
    (hfile : p.has_file = false) (hne : interestedList p ≠ []) :
    (recalc_preferred p shuffled).1.preferred_neighbors =
      (((interestedList p).mergeSort rateLe).take p.k).map Prod.fst := by
  unfold recalc_preferred
  rw [if_neg hne]
  dsimp only
  rw [hfile]
  rfl

/-- Concrete peer for C4: a leecher with one interested session (peer 2)
whose download-byte counter is 5 when the tick runs. -/
def witnessPeerC4 : Peer :=
  { peer_id := 1
    k := 1
    num_pieces := 1
    file_size := 4
    piece_size := 4
    has_file := false
    storage := fun _ => []
    fm_pieces_have := ∅
    pieces_needed := Finset.range 1
    my_bitfield := [0]
    connections := [2]
    peer_states := [(2, { initPeerState 2 with peer_interested := true, bytes_downloaded := 5 })]
    pending_requests := []
    preferred_neighbors := []
    optimistic_unchoked := none }

/-- C4 counterexample: the claim says each session's per-window
download-byte counter is reset to zero at the end of the tick; on the
concrete peer, session 2's only download-byte counter still holds 5 after
`_recalculate_preferred_neighbors` — the code never resets any counter
(and keeps no per-window counter at all: `download_rate` is cumulative
since peer start). -/
theorem C4_counterexample_no_window_reset :
    ((lookupA (recalc_preferred witnessPeerC4 []).1.peer_states 2).map
      (fun st => st.bytes_downloaded)) = some 5 ∧
    ((lookupA (recalc_preferred witnessPeerC4 []).1.peer_states 2).map
      (fun st => st.bytes_downloaded)) ≠ some 0 := by
  have h := recalc_lookup_proj (fun st => st.bytes_downloaded)
    (fun st b => rfl) witnessPeerC4 [] 2
  rw [h]
  exact ⟨rfl, by decide⟩

/-- C4 (amended): on a preferred-neighbor tick of a peer that does not yet
possess the complete file (and has at least one interested session), the
interested sessions are stably sorted descending by the stored cumulative
`download_rate` (average since peer start, not a p-second window; ties
keep dict order — no random shuffle), the top `min(k, |I|)` ids become the
preferred list, and **no** per-session download-byte counter or rate is
reset (the counters are cumulative, not tumbling-window). -/
theorem C4_amended_recalc_sorts_cumulative (p : Peer)
    (shuffled : List (Nat × PeerState))
    (hfile : p.has_file = false) (hne : interestedList p ≠ []) :
    ∃ sorted : List (Nat × PeerState),
      sorted.Perm (interestedList p) ∧
      sorted.Pairwise (fun a b => rateLe a b = true) ∧
      (recalc_preferred p shuffled).1.preferred_neighbors =
        (sorted.take p.k).map Prod.fst ∧
      (recalc_preferred p shuffled).1.preferred_neighbors.length =
        min p.k (interestedList p).length ∧
      (∀ s, (lookupA (recalc_preferred p shuffled).1.peer_states s).map
          (fun st => (st.bytes_downloaded, st.download_rate)) =
        (lookupA p.peer_states s).map
          (fun st => (st.bytes_downloaded, st.download_rate))) := by
  have htrans : ∀ a b c, rateLe a b = true → rateLe b c = true → rateLe a c = true := by
    intro a b c hab hbc
    simp only [rateLe, decide_eq_true_eq] at *
    exact le_trans hbc hab
  have htotal : ∀ a b, (rateLe a b || rateLe b a) = true := by
    intro a b
    simp only [rateLe, Bool.or_eq_true, decide_eq_true_eq]
    exact le_total _ _
  refine ⟨(interestedList p).mergeSort rateLe,
    List.mergeSort_perm _ _,
    List.sorted_mergeSort htrans htotal _,
    recalc_preferred_leecher p shuffled hfile hne, ?_, ?_⟩
  · rw [recalc_preferred_leecher p shuffled hfile hne]
    rw [List.length_map, List.length_take, List.length_mergeSort]
  · intro s
    exact recalc_lookup_proj (fun st => (st.bytes_downloaded, st.download_rate))
      (fun st b => rfl) p shuffled s

/-- C4 amended witness: the amended behavior at the concrete leecher peer
with one interested session. -/
theorem C4_amended_recalc_sorts_cumulative_witness :
    ∃ sorted : List (Nat × PeerState),
      sorted.Perm (interestedList witnessPeerC4) ∧
      sorted.Pairwise (fun a b => rateLe a b = true) ∧
      (recalc_preferred witnessPeerC4 []).1.preferred_neighbors =
        (sorted.take witnessPeerC4.k).map Prod.fst ∧
      (recalc_preferred witnessPeerC4 []).1.preferred_neighbors.length =
        min witnessPeerC4.k (interestedList witnessPeerC4).length ∧
      (∀ s, (lookupA (recalc_preferred witnessPeerC4 []).1.peer_states s).map
          (fun st => (st.bytes_downloaded, st.download_rate)) =
        (lookupA witnessPeerC4.peer_states s).map
          (fun st => (st.bytes_downloaded, st.download_rate))) :=
  C4_amended_recalc_sorts_cumulative witnessPeerC4 [] rfl (by decide)

/-! ### Request/piece counting (towards C3) -/

/-- Is this output a request frame to session `s`? -/
def isReqTo (s : Nat) (o : Output) : Bool :=
  match o.msg with
  | .request _ => o.dst = s
  | _ => false

/-- Requests emitted to session `s` along a trace. -/
def reqCount (s : Nat) (es : List Event) : Nat :=
  (es.map fun e => e.outputs.countP (isReqTo s)).sum

/-- Is this event an inbound piece frame from session `s`? -/
def isPieceFrom (s : Nat) (e : Event) : Bool :=
  match e.label with
  | .msg pid m => pid = s ∧ m.type_name = .piece
  | _ => false

/-- Piece frames received from session `s` along a trace. -/
def pieceCount (s : Nat) (es : List Event) : Nat := es.countP (isPieceFrom s)

/-- Flag that is 1 when a request to session `s` is outstanding in the swarm-level
`pending_requests` map. -/
def pendingFlag (p : Peer) (s : Nat) : Nat :=
  if (lookupA p.pending_requests s).isSome then 1 else 0

theorem pendingFlag_le_one (p : Peer) (s : Nat) : pendingFlag p s ≤ 1 := by
  unfold pendingFlag
  split <;> omega

/-- Result state differs from `p` at most in `peer_states` (structure-eta
lets every other field be read off `p`). -/
def StatesOnly (p q : Peer) : Prop := q = { p with peer_states := q.peer_states }

theorem statesOnly_refl (p : Peer) : StatesOnly p p := rfl

theorem statesOnly_trans {p q r : Peer} (h1 : StatesOnly p q) (h2 : StatesOnly q r) :
    StatesOnly p r := by
  unfold StatesOnly at *
  rw [h2, h1]

theorem StatesOnly.pending {p q : Peer} (h : StatesOnly p q) :
    q.pending_requests = p.pending_requests := by rw [h]

theorem StatesOnly.preferred {p q : Peer} (h : StatesOnly p q) :
    q.preferred_neighbors = p.preferred_neighbors := by rw [h]

theorem StatesOnly.optimistic {p q : Peer} (h : StatesOnly p q) :
    q.optimistic_unchoked = p.optimistic_unchoked := by rw [h]

theorem StatesOnly.connections {p q : Peer} (h : StatesOnly p q) :
    q.connections = p.connections := by rw [h]

theorem StatesOnly.kEq {p q : Peer} (h : StatesOnly p q) : q.k = p.k := by rw [h]

theorem send_choke_statesOnly (p : Peer) (pid : Nat) :
    StatesOnly p (send_choke p pid).1 := by
  unfold send_choke StatesOnly
  by_cases h : pid ∈ p.connections
  · rw [if_pos h]
  · rw [if_neg h]

theorem send_unchoke_statesOnly (p : Peer) (pid : Nat) :
    StatesOnly p (send_unchoke p pid).1 := by
  unfold send_unchoke StatesOnly
  by_cases h : pid ∈ p.connections
  · rw [if_pos h]
  · rw [if_neg h]

theorem sendChokeAll_statesOnly (pids : List Nat) :
    ∀ (p : Peer) (outs : List Output),
    StatesOnly p ((pids.foldl (fun acc pid =>
      let r := send_choke acc.1 pid
      (r.1, acc.2 ++ r.2)) (p, outs)).1) := by
  induction pids with
  | nil => intro p outs; exact statesOnly_refl p
  | cons x xs ih =>
    intro p outs
    rw [List.foldl_cons]
    exact statesOnly_trans (send_choke_statesOnly p x) (ih _ _)

theorem sendUnchokeAll_statesOnly (pids : List Nat) :
    ∀ (p : Peer) (outs : List Output),
    StatesOnly p ((pids.foldl (fun acc pid =>
      let r := send_unchoke acc.1 pid
      (r.1, acc.2 ++ r.2)) (p, outs)).1) := by
  induction pids with
  | nil => intro p outs; exact statesOnly_refl p
  | cons x xs ih =>
    intro p outs
    rw [List.foldl_cons]
    exact statesOnly_trans (send_unchoke_statesOnly p x) (ih _ _)

/-! Outputs of the non-request emitters contain no request frames. -/

theorem countP_isReqTo_send_interested (p : Peer) (pid s : Nat) :
    (send_interested p pid).countP (isReqTo s) = 0 := by
  unfold send_interested
  split <;> simp [isReqTo]

theorem countP_isReqTo_send_not_interested (p : Peer) (pid s : Nat) :
    (send_not_interested p pid).countP (isReqTo s) = 0 := by
  unfold send_not_interested
  split <;> simp [isReqTo]

theorem countP_isReqTo_send_choke (p : Peer) (pid s : Nat) :
    (send_choke p pid).2.countP (isReqTo s) = 0 := by
  unfold send_choke
  split <;> simp [isReqTo]

theorem countP_isReqTo_send_unchoke (p : Peer) (pid s : Nat) :
    (send_unchoke p pid).2.countP (isReqTo s) = 0 := by
  unfold send_unchoke
  split <;> simp [isReqTo]

theorem countP_isReqTo_broadcast_have (p : Peer) (i s : Nat) :
    (broadcast_have p i).countP (isReqTo s) = 0 := by
  unfold broadcast_have
  rw [List.countP_eq_zero]
  intro o ho
  obtain ⟨pid, _, rfl⟩ := List.mem_map.mp ho
  simp [isReqTo]

/-- The handler neither touches the swarm-level pending map nor emits a
request frame. -/
def PendSame (p : Peer) (r : Peer × List Output) : Prop :=
  r.1.pending_requests = p.pending_requests ∧
    ∀ s, r.2.countP (isReqTo s) = 0

theorem handle_bitfield_pend (p : Peer) (pid : Nat) (m : Message) :
    PendSame p (handle_bitfield p pid m) := by
  unfold handle_bitfield PendSame
  by_cases hp : m.payload = []
  · rw [if_pos hp]
    exact ⟨rfl, fun s => rfl⟩
  · rw [if_neg hp]
    cases lookupA p.peer_states pid with
    | none => exact ⟨rfl, fun s => rfl⟩
    | some st =>
      dsimp only
      split
      · exact ⟨rfl, fun s => countP_isReqTo_send_interested p pid s⟩
      · exact ⟨rfl, fun s => countP_isReqTo_send_not_interested p pid s⟩

theorem handle_interested_pend (p : Peer) (pid : Nat) :
    PendSame p (handle_interested p pid) :=
  ⟨rfl, fun _ => rfl⟩

theorem handle_not_interested_pend (p : Peer) (pid : Nat) :
    PendSame p (handle_not_interested p pid) :=
  ⟨rfl, fun _ => rfl⟩

theorem handle_choke_pend (p : Peer) (pid : Nat) :
    PendSame p (handle_choke p pid) :=
  ⟨rfl, fun _ => rfl⟩

theorem handle_have_pend (p : Peer) (pid : Nat) (m : Message) :
    PendSame p (handle_have p pid m) := by
  unfold handle_have PendSame
  cases m.get_piece_index with
  | none => exact ⟨rfl, fun s => rfl⟩
  | some i =>
    dsimp only
    cases lookupA p.peer_states pid with
    | none => exact ⟨rfl, fun s => rfl⟩
    | some st =>
      dsimp only
      split
      · exact ⟨rfl, fun s => countP_isReqTo_send_interested p pid s⟩
      · exact ⟨rfl, fun s => rfl⟩

theorem handle_request_pend (p : Peer) (pid : Nat) (m : Message) (elapsed : ℚ) :
    PendSame p (handle_request p pid m elapsed) := by
  unfold handle_request PendSame
  cases m.get_piece_index with
  | none => exact ⟨rfl, fun s => rfl⟩
  | some i =>
    dsimp only
    cases lookupA p.peer_states pid with
    | none => exact ⟨rfl, fun s => rfl⟩
    | some st =>
      dsimp only
      split
      · exact ⟨rfl, fun s => rfl⟩
      · split
        · exact ⟨rfl, fun s => rfl⟩
        · cases read_piece p i with
          | none => exact ⟨rfl, fun s => rfl⟩
          | some data =>
            dsimp only
            split
            · exact ⟨rfl, fun s => by simp [isReqTo]⟩
            · exact ⟨rfl, fun s => rfl⟩

theorem handle_new_connection_pend (p : Peer) (pid : Nat) :
    PendSame p (handle_new_connection p pid) :=
  ⟨rfl, fun s => by simp [handle_new_connection, isReqTo]⟩

theorem update_interest_one_pend (p : Peer) (pid : Nat) (st : PeerState) :
    PendSame p (update_interest_one p pid st) := by
  unfold update_interest_one PendSame
  cases st.bitfield with
  | none => exact ⟨rfl, fun s => rfl⟩
  | some bf =>
    dsimp only
    split
    · exact ⟨rfl, fun s => rfl⟩
    · split
      · exact ⟨rfl, fun s => countP_isReqTo_send_interested p pid s⟩
      · split
        · exact ⟨rfl, fun s => countP_isReqTo_send_not_interested p pid s⟩
        · exact ⟨rfl, fun s => rfl⟩

theorem update_interests_fold_pend (keys : List Nat) :
    ∀ (p : Peer) (outs : List Output),
    ((keys.foldl (fun acc pid =>
        match lookupA acc.1.peer_states pid with
        | none => acc
        | some st =>
          let r := update_interest_one acc.1 pid st
          (r.1, acc.2 ++ r.2)) (p, outs)).1.pending_requests = p.pending_requests) ∧
    ∀ s, ((keys.foldl (fun acc pid =>
        match lookupA acc.1.peer_states pid with
        | none => acc
        | some st =>
          let r := update_interest_one acc.1 pid st
          (r.1, acc.2 ++ r.2)) (p, outs)).2.countP (isReqTo s)) =
      outs.countP (isReqTo s) := by
  induction keys with
  | nil => intro p outs; exact ⟨rfl, fun s => rfl⟩
  | cons x xs ih =>
    intro p outs
    rw [List.foldl_cons]
    dsimp only
    cases hl : lookupA p.peer_states x with
    | none => exact ih p outs
    | some st =>
      dsimp only
      obtain ⟨h1, h2⟩ := ih (update_interest_one p x st).1
        (outs ++ (update_interest_one p x st).2)
      refine ⟨h1.trans (update_interest_one_pend p x st).1, fun s => ?_⟩
      rw [h2 s, List.countP_append, (update_interest_one_pend p x st).2 s]
      omega

theorem update_interests_pend (p : Peer) : PendSame p (update_interests p) := by
  unfold update_interests PendSame
  obtain ⟨h1, h2⟩ := update_interests_fold_pend (p.peer_states.map Prod.fst) p []
  exact ⟨h1, fun s => h2 s⟩

theorem sendChokeAll_countP (pids : List Nat) :
    ∀ (p : Peer) (outs : List Output) (s : Nat),
    ((pids.foldl (fun acc pid =>
        let r := send_choke acc.1 pid
        (r.1, acc.2 ++ r.2)) (p, outs)).2.countP (isReqTo s)) =
      outs.countP (isReqTo s) := by
  induction pids with
  | nil => intro p outs s; rfl
  | cons x xs ih =>
    intro p outs s
    rw [List.foldl_cons]
    dsimp only
    rw [ih, List.countP_append, countP_isReqTo_send_choke]
    omega

theorem sendUnchokeAll_countP (pids : List Nat) :
    ∀ (p : Peer) (outs : List Output) (s : Nat),
    ((pids.foldl (fun acc pid =>
        let r := send_unchoke acc.1 pid
        (r.1, acc.2 ++ r.2)) (p, outs)).2.countP (isReqTo s)) =
      outs.countP (isReqTo s) := by
  induction pids with
  | nil => intro p outs s; rfl
  | cons x xs ih =>
    intro p outs s
    rw [List.foldl_cons]
    dsimp only
    rw [ih, List.countP_append, countP_isReqTo_send_unchoke]
    omega

theorem recalc_preferred_pend (p : Peer) (shuffled : List (Nat × PeerState)) :
    PendSame p (recalc_preferred p shuffled) := by
  unfold recalc_preferred PendSame
  by_cases hi : interestedList p = []
  · rw [if_pos hi]
    exact ⟨rfl, fun s => rfl⟩
  · rw [if_neg hi]
    dsimp only [sendChokeAll, sendUnchokeAll]
    constructor
    · exact (statesOnly_trans (sendChokeAll_statesOnly _ p [])
        (sendUnchokeAll_statesOnly _ _ [])).pending
    · intro s
      rw [List.countP_append, sendChokeAll_countP, sendUnchokeAll_countP]
      simp

theorem select_optimistic_pend (p : Peer) (oracle : Nat) :
    PendSame p (select_optimistic p oracle) := by
  unfold select_optimistic PendSame
  dsimp only
  by_cases hcand : ((p.peer_states.filter (fun q =>
      q.2.peer_interested = true ∧ q.2.am_choking = true ∧
        q.1 ∉ p.preferred_neighbors)).map Prod.fst) = []
  · rw [if_pos hcand]
    exact ⟨rfl, fun s => rfl⟩
  · rw [if_neg hcand]
    dsimp only
    have hr1 : StatesOnly p (match p.optimistic_unchoked with
        | some prev =>
          if prev ∉ p.preferred_neighbors then send_choke p prev else (p, [])
        | none => (p, [])).1 := by
      cases p.optimistic_unchoked with
      | none => exact statesOnly_refl p
      | some prev =>
        dsimp only
        split
        · exact send_choke_statesOnly p prev
        · exact statesOnly_refl p
    have hr1c : ∀ s, ((match p.optimistic_unchoked with
        | some prev =>
          if prev ∉ p.preferred_neighbors then send_choke p prev else (p, [])
        | none => (p, [])).2.countP (isReqTo s)) = 0 := by
      intro s
      cases p.optimistic_unchoked with
      | none => rfl
      | some prev =>
        dsimp only
        split
        · exact countP_isReqTo_send_choke p prev s
        · rfl
    constructor
    · exact (statesOnly_trans hr1 (send_unchoke_statesOnly _ _)).pending
    · intro s
      rw [List.countP_append, hr1c, countP_isReqTo_send_unchoke]

/-- A request is emitted only when no request is pending with that
session, and it becomes the pending one: the emitted-request count plus
the old flag never exceeds the new flag. -/
theorem request_piece_pending_bound (p : Peer) (pid oracle s : Nat) :
    (request_piece p pid oracle).2.countP (isReqTo s) + pendingFlag p s ≤
      pendingFlag (request_piece p pid oracle).1 s := by
  unfold request_piece
  cases lookupA p.peer_states pid with
  | none => simp [pendingFlag]
  | some st =>
    dsimp only
    cases st.bitfield with
    | none => simp [pendingFlag]
    | some bf =>
      dsimp only
      by_cases hbe : bf = []
      · rw [if_pos hbe]
        simp [pendingFlag]
      · rw [if_neg hbe]
        by_cases hempty : (parse_bitfield bf p.num_pieces).toFinset ∩ p.pieces_needed = ∅
        · rw [if_pos hempty]
          rw [show (({ p with peer_states := updA p.peer_states pid (fun s => { s with am_interested := false }) }, send_not_interested p pid) : Peer × List Output).2.countP (isReqTo s) = 0 from countP_isReqTo_send_not_interested p pid s]
          simp [pendingFlag]
        · rw [if_neg hempty]
          by_cases hpend : (lookupA p.pending_requests pid).isSome
          · rw [if_pos hpend]
            simp [pendingFlag]
          · rw [if_neg hpend]
            by_cases hs : s = pid
            · subst hs
              rw [Option.not_isSome_iff_eq_none] at hpend
              unfold pendingFlag
              rw [lookupA_setA, if_pos rfl, hpend]
              simp [isReqTo]
            · unfold pendingFlag
              rw [lookupA_setA, if_neg hs]
              have hsp : ¬ pid = s := fun h => hs h.symm
              simp [isReqTo, hs, hsp]
theorem handle_unchoke_pending_bound (p : Peer) (pid oracle s : Nat) :
    (handle_unchoke p pid oracle).2.countP (isReqTo s) + pendingFlag p s ≤
      pendingFlag (handle_unchoke p pid oracle).1 s := by
  unfold handle_unchoke
  cases lookupA p.peer_states pid with
  | none => simp [pendingFlag]
  | some st =>
    dsimp only
    split
    · exact request_piece_pending_bound
        { p with peer_states := updA p.peer_states pid (fun s => { s with peer_choking := false }) }
        pid oracle s
    · simp [pendingFlag]

theorem markComplete_pending (c : Prop) [Decidable c] (X : Peer) :
    (if c then { X with has_file := true } else X).pending_requests =
      X.pending_requests := by
  split <;> rfl

theorem update_interests_pending (Z : Peer) :
    (update_interests Z).1.pending_requests = Z.pending_requests :=
  (update_interests_pend Z).1

theorem update_interests_countP (Z : Peer) (s : Nat) :
    (update_interests Z).2.countP (isReqTo s) = 0 :=
  (update_interests_pend Z).2 s

theorem piece_write_success_pending_bound (p2 : Peer) (pid i oracle : Nat)
    (hv : Finset Nat) (s : Nat) :
    (piece_write_success p2 pid i oracle hv).2.countP (isReqTo s) + pendingFlag p2 s ≤
      pendingFlag (piece_write_success p2 pid i oracle hv).1 s := by
  unfold piece_write_success
  dsimp only
  split
  · split
    · rw [List.countP_append, List.countP_append, countP_isReqTo_broadcast_have,
        update_interests_countP]
      refine le_trans ?_ (request_piece_pending_bound _ pid oracle s)
      unfold pendingFlag
      rw [markComplete_pending, update_interests_pending]
      dsimp only
      omega
    · rw [List.countP_append, countP_isReqTo_broadcast_have, update_interests_countP]
      unfold pendingFlag
      rw [markComplete_pending, update_interests_pending]
      dsimp only
      omega
  · rw [List.countP_append, countP_isReqTo_broadcast_have, update_interests_countP]
    unfold pendingFlag
    rw [markComplete_pending, update_interests_pending]
    dsimp only
    omega

theorem handle_piece_pending_bound (p : Peer) (pid : Nat) (m : Message) (oracle : Nat)
    (elapsed : ℚ) (s : Nat) :
    (handle_piece p pid m oracle elapsed).2.countP (isReqTo s) + pendingFlag p s ≤
      (if pid = s then 1 else 0) + pendingFlag (handle_piece p pid m oracle elapsed).1 s := by
  have hle := pendingFlag_le_one p s
  unfold handle_piece
  cases m.get_piece_index with
  | none =>
    dsimp only
    simp only [List.countP_nil]
    split <;> omega
  | some i =>
    cases m.get_piece_data with
    | none =>
      dsimp only
      simp only [List.countP_nil]
      split <;> omega
    | some data =>
      dsimp only
      split
      · -- write_piece raised: session removed, nothing sent
        unfold pendingFlag remove_peer
        dsimp only
        simp only [List.countP_nil]
        by_cases hs : pid = s
        · rw [if_pos hs]
          split_ifs <;> omega
        · rw [if_neg hs, lookupA_eraseA_ne _ _ _ (fun h => hs h.symm)]
      · split
        · -- duplicate / size mismatch: dropped
          unfold pendingFlag
          dsimp only
          simp only [List.countP_nil]
          by_cases hs : pid = s
          · rw [if_pos hs]
            split_ifs <;> omega
          · rw [if_neg hs, lookupA_eraseA_ne _ _ _ (fun h => hs h.symm)]
        · -- successful write
          refine le_trans ?_ (Nat.add_le_add_left
            (piece_write_success_pending_bound _ pid _ oracle _ s) _)
          unfold pendingFlag
          dsimp only
          by_cases hs : pid = s
          · rw [if_pos hs]
            split_ifs <;> omega
          · rw [if_neg hs, lookupA_eraseA_ne _ _ _ (fun h => hs h.symm)]
            unfold pendingFlag at hle
            split_ifs at * <;> omega

theorem pendSame_bound {p : Peer} {r : Peer × List Output} (h : PendSame p r)
    (s : Nat) (d : Nat) :
    r.2.countP (isReqTo s) + pendingFlag p s ≤ d + pendingFlag r.1 s := by
  rw [h.2 s]
  unfold pendingFlag
  rw [h.1]
  omega

theorem process_message_pending_bound (p : Peer) (pid : Nat) (m : Message)
    (oracle : Nat) (elapsed : ℚ) (s : Nat) :
    (process_message p pid m oracle elapsed).2.countP (isReqTo s) + pendingFlag p s ≤
      (if pid = s ∧ m.type_name = .piece then 1 else 0) +
        pendingFlag (process_message p pid m oracle elapsed).1 s := by
  unfold process_message
  cases lookupA p.peer_states pid with
  | none => simp [pendingFlag]
  | some st =>
    dsimp only
    cases htype : m.type_name with
    | bitfield =>
      dsimp only
      exact pendSame_bound (handle_bitfield_pend p pid m) s _
    | interested =>
      dsimp only
      exact pendSame_bound (handle_interested_pend p pid) s _
    | not_interested =>
      dsimp only
      exact pendSame_bound (handle_not_interested_pend p pid) s _
    | choke =>
      dsimp only
      exact pendSame_bound (handle_choke_pend p pid) s _
    | unchoke =>
      dsimp only
      refine le_trans (handle_unchoke_pending_bound p pid oracle s) ?_
      omega
    | «have» =>
      dsimp only
      exact pendSame_bound (handle_have_pend p pid m) s _
    | request =>
      dsimp only
      exact pendSame_bound (handle_request_pend p pid m elapsed) s _
    | piece =>
      dsimp only
      simp only [eq_self_iff_true, and_true]
      exact handle_piece_pending_bound p pid m oracle elapsed s

theorem step_pending_bound {p q : Peer} {e : Event} (h : Step p e q) (s : Nat) :
    e.outputs.countP (isReqTo s) + pendingFlag p s ≤
      (if isPieceFrom s e = true then 1 else 0) + pendingFlag q s := by
  cases h with
  | msg pid m oracle elapsed =>
    have hb := process_message_pending_bound p pid m oracle elapsed s
    unfold isPieceFrom
    dsimp only
    refine le_trans hb ?_
    have : (if pid = s ∧ m.type_name = MsgType.piece then 1 else 0) ≤
        (if (decide (pid = s ∧ m.type_name = MsgType.piece)) = true then 1 else 0) := by
      split_ifs with h1 h2 <;> simp_all
    omega
  | recalcTick shuffled hperm =>
    exact pendSame_bound (recalc_preferred_pend p shuffled) s _
  | optTick oracle =>
    exact pendSame_bound (select_optimistic_pend p oracle) s _
  | connect pid =>
    exact pendSame_bound (handle_new_connection_pend p pid) s _
  | remove pid =>
    simp only [List.countP_nil]
    unfold pendingFlag remove_peer
    dsimp only
    omega

theorem reqCount_cons (s : Nat) (e : Event) (es : List Event) :
    reqCount s (e :: es) = e.outputs.countP (isReqTo s) + reqCount s es := by
  unfold reqCount
  rw [List.map_cons, List.sum_cons]

theorem pieceCount_cons (s : Nat) (e : Event) (es : List Event) :
    pieceCount s (e :: es) =
      (if isPieceFrom s e = true then 1 else 0) + pieceCount s es := by
  unfold pieceCount
  rw [List.countP_cons]
  omega

theorem path_pending_bound {p q : Peer} {es : List Event} (h : Path p es q) (s : Nat) :
    reqCount s es + pendingFlag p s ≤ pieceCount s es + pendingFlag q s := by
  induction h with
  | nil => exact le_refl _
  | cons hstep hpath ih =>
    rename_i p' q' r' e' es'
    rw [reqCount_cons, pieceCount_cons]
    have h1 := step_pending_bound hstep s
    omega

/-- C3: along every execution from startup, at most one request per
session is outstanding — the number of request frames sent to a session
never exceeds the number of piece frames received from it plus one (so no
second request is sent to a session until a piece frame arrives from it),
and the swarm-level pending map holds at most one index per session. -/
theorem C3_at_most_one_outstanding_request (c : Config) (tr : List Event)
    (p : Peer) (s : Nat) (h : Path (initPeer c) tr p) :
    reqCount s tr ≤ pieceCount s tr + 1 ∧
    (∀ i j, lookupA p.pending_requests s = some i →
      lookupA p.pending_requests s = some j → i = j) := by
  constructor
  · have hb := path_pending_bound h s
    have h0 : pendingFlag (initPeer c) s = 0 := by
      unfold pendingFlag initPeer
      simp [lookupA]
    have h1 := pendingFlag_le_one p s
    omega
  · intro i j hi hj
    rw [hi] at hj
    exact (Option.some.injEq _ _).mp hj

/-- C3 witness: a two-step trace (connect then an interested frame) of a
fresh seeder; no request output appears, giving `0 ≤ 0 + 1`. -/
theorem C3_at_most_one_outstanding_request_witness :
    reqCount 2 [⟨.connect 2, (handle_new_connection (initPeer ⟨1, 1, 8, 4, true, fun _ => [1, 2, 3, 4]⟩) 2).2⟩] ≤
      pieceCount 2 [⟨.connect 2, (handle_new_connection (initPeer ⟨1, 1, 8, 4, true, fun _ => [1, 2, 3, 4]⟩) 2).2⟩] + 1 :=
  (C3_at_most_one_outstanding_request ⟨1, 1, 8, 4, true, fun _ => [1, 2, 3, 4]⟩
    _ _ 2 (Path.cons (Step.connect _ 2) (Path.nil _))).1

/-! ### Preferred-neighbor bookkeeping (towards C5 and C10) -/

theorem update_interest_one_statesOnly (p : Peer) (pid : Nat) (st : PeerState) :
    StatesOnly p (update_interest_one p pid st).1 := by
  unfold update_interest_one StatesOnly
  cases st.bitfield with
  | none => rfl
  | some bf =>
    dsimp only
    split
    · rfl
    · split
      · rfl
      · split
        · rfl
        · rfl

theorem update_interests_fold_statesOnly (keys : List Nat) :
    ∀ (p : Peer) (outs : List Output),
    StatesOnly p ((keys.foldl (fun acc pid =>
        match lookupA acc.1.peer_states pid with
        | none => acc
        | some st =>
          let r := update_interest_one acc.1 pid st
          (r.1, acc.2 ++ r.2)) (p, outs)).1) := by
  induction keys with
  | nil => intro p outs; exact statesOnly_refl p
  | cons x xs ih =>
    intro p outs
    rw [List.foldl_cons]
    dsimp only
    cases hl : lookupA p.peer_states x with
    | none => exact ih p outs
    | some st =>
      dsimp only
      exact statesOnly_trans (update_interest_one_statesOnly p x st) (ih _ _)

theorem update_interests_statesOnly (p : Peer) : StatesOnly p (update_interests p).1 := by
  unfold update_interests
  exact update_interests_fold_statesOnly (p.peer_states.map Prod.fst) p []

theorem markComplete_pref (c : Prop) [Decidable c] (X : Peer) :
    (if c then { X with has_file := true } else X).preferred_neighbors =
      X.preferred_neighbors := by
  split <;> rfl

theorem markComplete_k (c : Prop) [Decidable c] (X : Peer) :
    (if c then { X with has_file := true } else X).k = X.k := by
  split <;> rfl

theorem markComplete_states (c : Prop) [Decidable c] (X : Peer) :
    (if c then { X with has_file := true } else X).peer_states = X.peer_states := by
  split <;> rfl

theorem markComplete_connections (c : Prop) [Decidable c] (X : Peer) :
    (if c then { X with has_file := true } else X).connections = X.connections := by
  split <;> rfl

theorem markComplete_optimistic (c : Prop) [Decidable c] (X : Peer) :
    (if c then { X with has_file := true } else X).optimistic_unchoked =
      X.optimistic_unchoked := by
  split <;> rfl

theorem request_piece_prefK (p : Peer) (pid oracle : Nat) :
    (request_piece p pid oracle).1.k = p.k ∧
    (request_piece p pid oracle).1.preferred_neighbors = p.preferred_neighbors ∧
    (request_piece p pid oracle).1.connections = p.connections ∧
    (request_piece p pid oracle).1.optimistic_unchoked = p.optimistic_unchoked := by
  unfold request_piece
  cases lookupA p.peer_states pid with
  | none => exact ⟨rfl, rfl, rfl, rfl⟩
  | some st =>
    dsimp only
    cases st.bitfield with
    | none => exact ⟨rfl, rfl, rfl, rfl⟩
    | some bf =>
      dsimp only
      split
      · exact ⟨rfl, rfl, rfl, rfl⟩
      · split
        · exact ⟨rfl, rfl, rfl, rfl⟩
        · split
          · exact ⟨rfl, rfl, rfl, rfl⟩
          · exact ⟨rfl, rfl, rfl, rfl⟩

theorem piece_write_success_prefK (p2 : Peer) (pid i oracle : Nat) (hv : Finset Nat) :
    (piece_write_success p2 pid i oracle hv).1.k = p2.k ∧
    (piece_write_success p2 pid i oracle hv).1.preferred_neighbors =
      p2.preferred_neighbors ∧
    (piece_write_success p2 pid i oracle hv).1.connections = p2.connections ∧
    (piece_write_success p2 pid i oracle hv).1.optimistic_unchoked =
      p2.optimistic_unchoked := by
  have hso := update_interests_statesOnly { p2 with
    fm_pieces_have := hv,
    pieces_needed := Finset.range p2.num_pieces \ hv,
    my_bitfield := set_piece p2.my_bitfield i }
  unfold piece_write_success
  dsimp only
  split
  · split
    · refine ⟨?_, ?_, ?_, ?_⟩ <;>
        [rw [(request_piece_prefK _ pid oracle).1, markComplete_k, hso.kEq];
         rw [(request_piece_prefK _ pid oracle).2.1, markComplete_pref, hso.preferred];
         rw [(request_piece_prefK _ pid oracle).2.2.1, markComplete_connections, hso.connections];
         rw [(request_piece_prefK _ pid oracle).2.2.2, markComplete_optimistic, hso.optimistic]]
    · refine ⟨?_, ?_, ?_, ?_⟩ <;>
        [rw [markComplete_k, hso.kEq];
         rw [markComplete_pref, hso.preferred];
         rw [markComplete_connections, hso.connections];
         rw [markComplete_optimistic, hso.optimistic]]
  · refine ⟨?_, ?_, ?_, ?_⟩ <;>
      [rw [markComplete_k, hso.kEq];
       rw [markComplete_pref, hso.preferred];
       rw [markComplete_connections, hso.connections];
       rw [markComplete_optimistic, hso.optimistic]]

theorem handle_bitfield_prefK (p : Peer) (pid : Nat) (m : Message) :
    (handle_bitfield p pid m).1.k = p.k ∧
    (handle_bitfield p pid m).1.preferred_neighbors = p.preferred_neighbors := by
  unfold handle_bitfield
  split
  · exact ⟨rfl, rfl⟩
  · cases lookupA p.peer_states pid with
    | none => exact ⟨rfl, rfl⟩
    | some st =>
      dsimp only
      split
      · exact ⟨rfl, rfl⟩
      · exact ⟨rfl, rfl⟩

theorem handle_have_prefK (p : Peer) (pid : Nat) (m : Message) :
    (handle_have p pid m).1.k = p.k ∧
    (handle_have p pid m).1.preferred_neighbors = p.preferred_neighbors := by
  unfold handle_have
  cases m.get_piece_index with
  | none => exact ⟨rfl, rfl⟩
  | some i =>
    dsimp only
    cases lookupA p.peer_states pid with
    | none => exact ⟨rfl, rfl⟩
    | some st =>
      dsimp only
      split
      · exact ⟨rfl, rfl⟩
      · exact ⟨rfl, rfl⟩

theorem handle_request_prefK (p : Peer) (pid : Nat) (m : Message) (elapsed : ℚ) :
    (handle_request p pid m elapsed).1.k = p.k ∧
    (handle_request p pid m elapsed).1.preferred_neighbors = p.preferred_neighbors := by
  unfold handle_request
  cases m.get_piece_index with
  | none => exact ⟨rfl, rfl⟩
  | some i =>
    dsimp only
    cases lookupA p.peer_states pid with
    | none => exact ⟨rfl, rfl⟩
    | some st =>
      dsimp only
      split
      · exact ⟨rfl, rfl⟩
      · split
        · exact ⟨rfl, rfl⟩
        · cases read_piece p i with
          | none => exact ⟨rfl, rfl⟩
          | some data =>
            dsimp only
            split
            · exact ⟨rfl, rfl⟩
            · exact ⟨rfl, rfl⟩

theorem handle_unchoke_prefK (p : Peer) (pid oracle : Nat) :
    (handle_unchoke p pid oracle).1.k = p.k ∧
    (handle_unchoke p pid oracle).1.preferred_neighbors = p.preferred_neighbors := by
  unfold handle_unchoke
  cases lookupA p.peer_states pid with
  | none => exact ⟨rfl, rfl⟩
  | some st =>
    dsimp only
    split
    · exact ⟨(request_piece_prefK _ pid oracle).1, (request_piece_prefK _ pid oracle).2.1⟩
    · exact ⟨rfl, rfl⟩

theorem handle_piece_prefK (p : Peer) (pid : Nat) (m : Message) (oracle : Nat)
    (elapsed : ℚ) :
    (handle_piece p pid m oracle elapsed).1.k = p.k ∧
    ((handle_piece p pid m oracle elapsed).1.preferred_neighbors =
        p.preferred_neighbors ∨
      (handle_piece p pid m oracle elapsed).1.preferred_neighbors =
        p.preferred_neighbors.erase pid) := by
  unfold handle_piece
  cases m.get_piece_index with
  | none => dsimp only; exact ⟨rfl, Or.inl rfl⟩
  | some i =>
    cases m.get_piece_data with
    | none => dsimp only; exact ⟨rfl, Or.inl rfl⟩
    | some data =>
      dsimp only
      split
      · exact ⟨rfl, Or.inr rfl⟩
      · split
        · exact ⟨rfl, Or.inl rfl⟩
        · refine ⟨(piece_write_success_prefK _ pid _ oracle _).1, Or.inl
            (piece_write_success_prefK _ pid _ oracle _).2.1⟩

theorem process_message_prefK (p : Peer) (pid : Nat) (m : Message) (oracle : Nat)
    (elapsed : ℚ) :
    (process_message p pid m oracle elapsed).1.k = p.k ∧
    ((process_message p pid m oracle elapsed).1.preferred_neighbors =
        p.preferred_neighbors ∨
      (process_message p pid m oracle elapsed).1.preferred_neighbors =
        p.preferred_neighbors.erase pid) := by
  unfold process_message
  cases lookupA p.peer_states pid with
  | none => exact ⟨rfl, Or.inl rfl⟩
  | some st =>
    dsimp only
    cases m.type_name with
    | bitfield =>
      dsimp only
      exact ⟨(handle_bitfield_prefK p pid m).1, Or.inl (handle_bitfield_prefK p pid m).2⟩
    | interested => dsimp only; exact ⟨rfl, Or.inl rfl⟩
    | not_interested => dsimp only; exact ⟨rfl, Or.inl rfl⟩
    | choke => dsimp only; exact ⟨rfl, Or.inl rfl⟩
    | unchoke =>
      dsimp only
      exact ⟨(handle_unchoke_prefK p pid oracle).1,
        Or.inl (handle_unchoke_prefK p pid oracle).2⟩
    | «have» =>
      dsimp only
      exact ⟨(handle_have_prefK p pid m).1, Or.inl (handle_have_prefK p pid m).2⟩
    | request =>
      dsimp only
      exact ⟨(handle_request_prefK p pid m elapsed).1,
        Or.inl (handle_request_prefK p pid m elapsed).2⟩
    | piece =>
      dsimp only
      exact handle_piece_prefK p pid m oracle elapsed

theorem recalc_preferred_k (p : Peer) (shuffled : List (Nat × PeerState)) :
    (recalc_preferred p shuffled).1.k = p.k := by
  unfold recalc_preferred
  by_cases hi : interestedList p = []
  · rw [if_pos hi]
  · rw [if_neg hi]
    dsimp only [sendChokeAll, sendUnchokeAll]
    exact (statesOnly_trans (sendChokeAll_statesOnly _ p [])
      (sendUnchokeAll_statesOnly _ _ [])).kEq

theorem recalc_preferred_pref (p : Peer) (shuffled : List (Nat × PeerState)) :
    (recalc_preferred p shuffled).1.preferred_neighbors = p.preferred_neighbors ∨
    (recalc_preferred p shuffled).1.preferred_neighbors.length ≤ p.k := by
  unfold recalc_preferred
  by_cases hi : interestedList p = []
  · rw [if_pos hi]
    exact Or.inl rfl
  · rw [if_neg hi]
    right
    dsimp only
    split
    · rw [List.length_map, List.length_take]
      omega
    · rw [List.length_map, List.length_take]
      omega

theorem select_optimistic_prefK (p : Peer) (oracle : Nat) :
    (select_optimistic p oracle).1.k = p.k ∧
    (select_optimistic p oracle).1.preferred_neighbors = p.preferred_neighbors := by
  unfold select_optimistic
  dsimp only
  split
  · exact ⟨rfl, rfl⟩
  · constructor
    · refine (statesOnly_trans ?_ (send_unchoke_statesOnly _ _)).kEq
      cases p.optimistic_unchoked with
      | none => exact statesOnly_refl p
      | some prev =>
        dsimp only
        split
        · exact send_choke_statesOnly p prev
        · exact statesOnly_refl p
    · refine (statesOnly_trans ?_ (send_unchoke_statesOnly _ _)).preferred
      cases p.optimistic_unchoked with
      | none => exact statesOnly_refl p
      | some prev =>
        dsimp only
        split
        · exact send_choke_statesOnly p prev
        · exact statesOnly_refl p

theorem step_prefK {p q : Peer} {e : Event} (h : Step p e q) :
    q.k = p.k ∧
    (q.preferred_neighbors = p.preferred_neighbors ∨
      (∃ x, q.preferred_neighbors = p.preferred_neighbors.erase x) ∨
      q.preferred_neighbors.length ≤ p.k) := by
  cases h with
  | msg pid m oracle elapsed =>
    obtain ⟨h1, h2⟩ := process_message_prefK p pid m oracle elapsed
    exact ⟨h1, h2.elim Or.inl (fun he => Or.inr (Or.inl ⟨pid, he⟩))⟩
  | recalcTick shuffled hperm =>
    exact ⟨recalc_preferred_k p shuffled,
      (recalc_preferred_pref p shuffled).elim Or.inl (fun hl => Or.inr (Or.inr hl))⟩
  | optTick oracle =>
    exact ⟨(select_optimistic_prefK p oracle).1,
      Or.inl (select_optimistic_prefK p oracle).2⟩
  | connect pid => exact ⟨rfl, Or.inl rfl⟩
  | remove pid => exact ⟨rfl, Or.inr (Or.inl ⟨pid, rfl⟩)⟩

theorem path_pref_le_k {p q : Peer} {es : List Event} (h : Path p es q)
    (hp : p.preferred_neighbors.length ≤ p.k) :
    q.preferred_neighbors.length ≤ q.k := by
  induction h with
  | nil => exact hp
  | cons hstep hpath ih =>
    obtain ⟨h1, h2⟩ := step_prefK hstep
    refine ih ?_
    rcases h2 with he | ⟨x, he⟩ | hl
    · rw [h1, he]; exact hp
    · rw [h1, he]
      exact le_trans (List.Sublist.length_le (List.erase_sublist _ _)) hp
    · rw [h1]; exact hl

theorem getD_mem_of_ne_nil (l : List Nat) (n : Nat) (h : l ≠ []) :
    l.getD (n % l.length) 0 ∈ l := by
  have hlen : 0 < l.length := List.length_pos.mpr h
  have hidx : n % l.length < l.length := Nat.mod_lt _ hlen
  rw [List.getD_eq_getElem?_getD, List.getElem?_eq_getElem hidx]
  exact List.getElem_mem hidx

/-- C5 (amended): at every reachable state `|preferred_neighbors| ≤ k`
holds; the optimistic choice is disjoint from `preferred_neighbors` at the
moment of its selection (`_select_optimistic_unchoked` draws only from
non-preferred sessions and leaves `preferred_neighbors` unchanged), but
disjointness is **not** an invariant — a later preferred recalculation may
promote the optimistically unchoked peer (see the counterexample). -/
theorem C5_amended_size_bound_and_fresh_disjoint (c : Config) (p : Peer)
    (h : Reachable c p) :
    p.preferred_neighbors.length ≤ p.k ∧
    (∀ oracle x, (select_optimistic p oracle).1.optimistic_unchoked = some x →
      (select_optimistic p oracle).1 = p ∨
        x ∉ (select_optimistic p oracle).1.preferred_neighbors) := by
  constructor
  · obtain ⟨tr, hp⟩ := h
    refine path_pref_le_k hp ?_
    exact Nat.zero_le _
  · intro oracle x hx
    unfold select_optimistic at hx ⊢
    by_cases hcand : ((p.peer_states.filter (fun q =>
        q.2.peer_interested = true ∧ q.2.am_choking = true ∧
          q.1 ∉ p.preferred_neighbors)).map Prod.fst) = []
    · rw [if_pos hcand]
      exact Or.inl rfl
    · rw [if_neg hcand] at hx ⊢
      right
      dsimp only at hx ⊢
      have hxeq := Option.some.inj hx
      have hmem := getD_mem_of_ne_nil _ oracle hcand
      rw [hxeq] at hmem
      obtain ⟨qe, hqe, hfst⟩ := List.mem_map.mp hmem
      have hpred := (List.mem_filter.mp hqe).2
      simp only [decide_eq_true_eq] at hpred
      have hnot : x ∉ p.preferred_neighbors := hfst ▸ hpred.2.2
      have hpref : ((send_unchoke (match p.optimistic_unchoked with
          | some prev =>
            if prev ∉ p.preferred_neighbors then send_choke p prev else (p, [])
          | none => (p, [])).1 (((p.peer_states.filter (fun q : Nat × PeerState =>
            q.2.peer_interested = true ∧ q.2.am_choking = true ∧
              q.1 ∉ p.preferred_neighbors)).map Prod.fst).getD
            (oracle % ((p.peer_states.filter (fun q : Nat × PeerState =>
              q.2.peer_interested = true ∧ q.2.am_choking = true ∧
                q.1 ∉ p.preferred_neighbors)).map Prod.fst).length) 0)).1).preferred_neighbors =
          p.preferred_neighbors := by
        refine (statesOnly_trans ?_ (send_unchoke_statesOnly _ _)).preferred
        cases p.optimistic_unchoked with
        | none => exact statesOnly_refl p
        | some prev =>
          dsimp only
          split
          · exact send_choke_statesOnly p prev
          · exact statesOnly_refl p
      rw [hpref]
      exact hnot

/-- Configuration for the C5 trace: one seeder, `k = 1`, one piece. -/
def cfgC5 : Config := ⟨1, 1, 4, 4, true, fun _ => [9, 9, 9, 9]⟩

/-- C5 counterexample: the claim requires
`preferred_neighbors ∩ \x7boptimistic_unchoked\x7d = ∅` at every reachable
state; after connect 2, connect 3, interested from both, a preferred tick
choosing peer 2, an optimistic tick choosing peer 3, and a second
preferred tick whose shuffle puts peer 3 first, the reachable state has
`optimistic_unchoked = 3` **and** `3 ∈ preferred_neighbors` — the
recalculation never excludes the optimistically unchoked peer and never
clears the mark. -/
theorem C5_counterexample_optimistic_promoted_to_preferred :
    ∃ p : Peer, Reachable cfgC5 p ∧ p.optimistic_unchoked = some 3 ∧
      3 ∈ p.preferred_neighbors := by
  refine ⟨_, ⟨_, Path.cons (Step.connect (initPeer cfgC5) 2)
      (Path.cons (Step.connect _ 3)
      (Path.cons (Step.msg _ 2 ⟨2, .interested, []⟩ 0 0)
      (Path.cons (Step.msg _ 3 ⟨2, .interested, []⟩ 0 0)
      (Path.cons (Step.recalcTick _ (interestedList _) (List.Perm.refl _))
      (Path.cons (Step.optTick _ 0)
      (Path.cons (Step.recalcTick _ ((interestedList _).reverse)
        ((interestedList _).reverse_perm))
      (Path.nil _)))))))⟩, ?_, ?_⟩
  · decide
  · decide

/-- C5 amended witness: the bound and the fresh-selection disjointness at
the (reachable) initial state of the C5 configuration. -/
theorem C5_amended_size_bound_witness :
    (initPeer cfgC5).preferred_neighbors.length ≤ (initPeer cfgC5).k :=
  (C5_amended_size_bound_and_fresh_disjoint cfgC5 (initPeer cfgC5)
    ⟨[], Path.nil _⟩).1

/-! ### Key uniqueness (towards C10) -/

theorem keys_updA {α : Type} (l : List (Nat × α)) (k : Nat) (f : α → α) :
    (updA l k f).map Prod.fst = l.map Prod.fst := by
  induction l with
  | nil => rfl
  | cons a rest ih =>
    obtain ⟨ka, va⟩ := a
    simp only [updA, List.map_cons] at ih ⊢
    by_cases h : ka = k
    · rw [if_pos (show (ka, va).1 = k from h)]
      rw [ih]
    · rw [if_neg (show ¬ (ka, va).1 = k from h)]
      rw [ih]

theorem keys_eraseA_sublist {α : Type} (l : List (Nat × α)) (k : Nat) :
    ((eraseA l k).map Prod.fst).Sublist (l.map Prod.fst) := by
  induction l with
  | nil => exact List.Sublist.refl _
  | cons a rest ih =>
    obtain ⟨ka, va⟩ := a
    simp only [eraseA]
    by_cases h : ka = k
    · rw [if_pos h, List.map_cons]
      exact List.sublist_cons_of_sublist _ (List.Sublist.refl _)
    · rw [if_neg h, List.map_cons, List.map_cons]
      exact List.Sublist.cons₂ _ ih

theorem lookupA_eq_none_iff {α : Type} (l : List (Nat × α)) (k : Nat) :
    lookupA l k = none ↔ k ∉ l.map Prod.fst := by
  induction l with
  | nil => simp [lookupA]
  | cons a rest ih =>
    obtain ⟨ka, va⟩ := a
    rw [lookupA_cons, List.map_cons]
    by_cases h : ka = k
    · simp [h]
    · simp only [if_neg h, List.mem_cons, ih]
      constructor
      · intro hn hc
        rcases hc with hc | hc
        · exact h hc.symm
        · exact hn hc
      · intro hn
        exact fun hc => hn (Or.inr hc)

theorem keys_setA_nodup {α : Type} (l : List (Nat × α)) (k : Nat) (v : α)
    (h : (l.map Prod.fst).Nodup) : ((setA l k v).map Prod.fst).Nodup := by
  unfold setA
  by_cases hs : (lookupA l k).isSome
  · rw [if_pos hs, keys_updA]
    exact h
  · rw [if_neg hs, List.map_append]
    rw [Option.not_isSome_iff_eq_none] at hs
    have hk := (lookupA_eq_none_iff l k).mp hs
    simp only [List.map_cons, List.map_nil]
    rw [List.nodup_append]
    exact ⟨h, List.nodup_singleton _, by simp [hk, List.disjoint_singleton]⟩

theorem lookupA_eraseA_self {α : Type} (l : List (Nat × α)) (k : Nat)
    (h : (l.map Prod.fst).Nodup) : lookupA (eraseA l k) k = none := by
  induction l with
  | nil => rfl
  | cons a rest ih =>
    obtain ⟨ka, va⟩ := a
    rw [List.map_cons, List.nodup_cons] at h
    simp only [eraseA]
    by_cases hk : ka = k
    · rw [if_pos hk]
      rw [lookupA_eq_none_iff]
      rw [← hk]
      exact h.1
    · rw [if_neg hk, lookupA_cons, if_neg hk]
      exact ih h.2

/-- Reachable-state well-formedness: session keys, connections and the
preferred list are duplicate-free. -/
def WF (p : Peer) : Prop :=
  (p.peer_states.map Prod.fst).Nodup ∧ p.connections.Nodup ∧
    p.preferred_neighbors.Nodup

theorem send_choke_keys (p : Peer) (pid : Nat) :
    (send_choke p pid).1.peer_states.map Prod.fst = p.peer_states.map Prod.fst := by
  unfold send_choke
  split
  · dsimp only
    exact keys_updA _ _ _
  · rfl

theorem send_unchoke_keys (p : Peer) (pid : Nat) :
    (send_unchoke p pid).1.peer_states.map Prod.fst = p.peer_states.map Prod.fst := by
  unfold send_unchoke
  split
  · dsimp only
    exact keys_updA _ _ _
  · rfl

theorem sendChokeAll_keys (pids : List Nat) :
    ∀ (p : Peer) (outs : List Output),
    ((pids.foldl (fun acc pid =>
        let r := send_choke acc.1 pid
        (r.1, acc.2 ++ r.2)) (p, outs)).1.peer_states.map Prod.fst) =
      p.peer_states.map Prod.fst := by
  induction pids with
  | nil => intro p outs; rfl
  | cons x xs ih =>
    intro p outs
    rw [List.foldl_cons]
    exact (ih _ _).trans (send_choke_keys p x)

theorem sendUnchokeAll_keys (pids : List Nat) :
    ∀ (p : Peer) (outs : List Output),
    ((pids.foldl (fun acc pid =>
        let r := send_unchoke acc.1 pid
        (r.1, acc.2 ++ r.2)) (p, outs)).1.peer_states.map Prod.fst) =
      p.peer_states.map Prod.fst := by
  induction pids with
  | nil => intro p outs; rfl
  | cons x xs ih =>
    intro p outs
    rw [List.foldl_cons]
    exact (ih _ _).trans (send_unchoke_keys p x)

theorem update_interest_one_keys (p : Peer) (pid : Nat) (st : PeerState) :
    (update_interest_one p pid st).1.peer_states.map Prod.fst =
      p.peer_states.map Prod.fst := by
  unfold update_interest_one
  cases st.bitfield with
  | none => rfl
  | some bf =>
    dsimp only
    split
    · rfl
    · split
      · dsimp only
        exact keys_updA _ _ _
      · split
        · dsimp only
          exact keys_updA _ _ _
        · rfl

theorem update_interests_fold_keys (keys : List Nat) :
    ∀ (p : Peer) (outs : List Output),
    ((keys.foldl (fun acc pid =>
        match lookupA acc.1.peer_states pid with
        | none => acc
        | some st =>
          let r := update_interest_one acc.1 pid st
          (r.1, acc.2 ++ r.2)) (p, outs)).1.peer_states.map Prod.fst) =
      p.peer_states.map Prod.fst := by
  induction keys with
  | nil => intro p outs; rfl
  | cons x xs ih =>
    intro p outs
    rw [List.foldl_cons]
    dsimp only
    cases hl : lookupA p.peer_states x with
    | none => exact ih p outs
    | some st =>
      dsimp only
      exact (ih _ _).trans (update_interest_one_keys p x st)

theorem update_interests_keys (p : Peer) :
    (update_interests p).1.peer_states.map Prod.fst = p.peer_states.map Prod.fst := by
  unfold update_interests
  exact update_interests_fold_keys (p.peer_states.map Prod.fst) p []

theorem request_piece_keys (p : Peer) (pid oracle : Nat) :
    (request_piece p pid oracle).1.peer_states.map Prod.fst =
      p.peer_states.map Prod.fst := by
  unfold request_piece
  cases lookupA p.peer_states pid with
  | none => rfl
  | some st =>
    dsimp only
    cases st.bitfield with
    | none => rfl
    | some bf =>
      dsimp only
      split
      · rfl
      · split
        · dsimp only
          exact keys_updA _ _ _
        · split
          · rfl
          · dsimp only
            exact keys_updA _ _ _

theorem piece_write_success_keys (p2 : Peer) (pid i oracle : Nat) (hv : Finset Nat) :
    (piece_write_success p2 pid i oracle hv).1.peer_states.map Prod.fst =
      p2.peer_states.map Prod.fst := by
  unfold piece_write_success
  dsimp only
  split
  · split
    · rw [request_piece_keys, markComplete_states, update_interests_keys]
    · rw [markComplete_states, update_interests_keys]
  · rw [markComplete_states, update_interests_keys]

theorem handle_bitfield_keys (p : Peer) (pid : Nat) (m : Message) :
    (handle_bitfield p pid m).1.peer_states.map Prod.fst =
      p.peer_states.map Prod.fst := by
  unfold handle_bitfield
  split
  · rfl
  · cases lookupA p.peer_states pid with
    | none => rfl
    | some st =>
      dsimp only
      split
      · dsimp only
        exact keys_updA _ _ _
      · dsimp only
        exact keys_updA _ _ _

theorem handle_have_keys (p : Peer) (pid : Nat) (m : Message) :
    (handle_have p pid m).1.peer_states.map Prod.fst =
      p.peer_states.map Prod.fst := by
  unfold handle_have
  cases m.get_piece_index with
  | none => rfl
  | some i =>
    dsimp only
    cases lookupA p.peer_states pid with
    | none => rfl
    | some st =>
      dsimp only
      split
      · dsimp only
        rw [keys_updA, keys_updA]
      · dsimp only
        exact keys_updA _ _ _

theorem handle_request_keys (p : Peer) (pid : Nat) (m : Message) (elapsed : ℚ) :
    (handle_request p pid m elapsed).1.peer_states.map Prod.fst =
      p.peer_states.map Prod.fst := by
  unfold handle_request
  cases m.get_piece_index with
  | none => rfl
  | some i =>
    dsimp only
    cases lookupA p.peer_states pid with
    | none => rfl
    | some st =>
      dsimp only
      split
      · rfl
      · split
        · rfl
        · cases read_piece p i with
          | none => rfl
          | some data =>
            dsimp only
            split
            · dsimp only
              exact keys_updA _ _ _
            · rfl

theorem handle_unchoke_keys (p : Peer) (pid oracle : Nat) :
    (handle_unchoke p pid oracle).1.peer_states.map Prod.fst =
      p.peer_states.map Prod.fst := by
  unfold handle_unchoke
  cases lookupA p.peer_states pid with
  | none => rfl
  | some st =>
    dsimp only
    split
    · rw [request_piece_keys]
      dsimp only
      exact keys_updA _ _ _
    · dsimp only
      exact keys_updA _ _ _

theorem handle_bitfield_connections (p : Peer) (pid : Nat) (m : Message) :
    (handle_bitfield p pid m).1.connections = p.connections := by
  unfold handle_bitfield
  split
  · rfl
  · cases lookupA p.peer_states pid with
    | none => rfl
    | some st =>
      dsimp only
      split
      · rfl
      · rfl

theorem handle_have_connections (p : Peer) (pid : Nat) (m : Message) :
    (handle_have p pid m).1.connections = p.connections := by
  unfold handle_have
  cases m.get_piece_index with
  | none => rfl
  | some i =>
    dsimp only
    cases lookupA p.peer_states pid with
    | none => rfl
    | some st =>
      dsimp only
      split
      · rfl
      · rfl

theorem handle_request_connections (p : Peer) (pid : Nat) (m : Message) (elapsed : ℚ) :
    (handle_request p pid m elapsed).1.connections = p.connections := by
  unfold handle_request
  cases m.get_piece_index with
  | none => rfl
  | some i =>
    dsimp only
    cases lookupA p.peer_states pid with
    | none => rfl
    | some st =>
      dsimp only
      split
      · rfl
      · split
        · rfl
        · cases read_piece p i with
          | none => rfl
          | some data =>
            dsimp only
            split
            · rfl
            · rfl

theorem handle_unchoke_connections (p : Peer) (pid oracle : Nat) :
    (handle_unchoke p pid oracle).1.connections = p.connections := by
  unfold handle_unchoke
  cases lookupA p.peer_states pid with
  | none => rfl
  | some st =>
    dsimp only
    split
    · exact (request_piece_prefK _ pid oracle).2.2.1
    · rfl

/-- The handler `_handle_piece` leaves the session keys, the connections list and the
preferred list each a sublist of the originals (a failed write removes the
sender; a success leaves all three unchanged). -/
theorem handle_piece_wf_sub (p : Peer) (pid : Nat) (m : Message) (oracle : Nat)
    (elapsed : ℚ) :
    (((handle_piece p pid m oracle elapsed).1.peer_states.map Prod.fst).Sublist
      (p.peer_states.map Prod.fst)) ∧
    ((handle_piece p pid m oracle elapsed).1.connections.Sublist p.connections) ∧
    ((handle_piece p pid m oracle elapsed).1.preferred_neighbors.Sublist
      p.preferred_neighbors) := by
  unfold handle_piece
  cases m.get_piece_index with
  | none =>
    dsimp only
    exact ⟨List.Sublist.refl _, List.Sublist.refl _, List.Sublist.refl _⟩
  | some i =>
    cases m.get_piece_data with
    | none =>
      dsimp only
      exact ⟨List.Sublist.refl _, List.Sublist.refl _, List.Sublist.refl _⟩
    | some data =>
      dsimp only
      split
      · unfold remove_peer
        dsimp only
        refine ⟨?_, List.erase_sublist _ _, List.erase_sublist _ _⟩
        refine List.Sublist.trans (keys_eraseA_sublist _ _) ?_
        rw [keys_updA]
      · split
        · dsimp only
          refine ⟨?_, List.Sublist.refl _, List.Sublist.refl _⟩
          rw [keys_updA]
        · refine ⟨?_, ?_, ?_⟩
          · rw [piece_write_success_keys]
            dsimp only
            rw [keys_updA]
          · rw [(piece_write_success_prefK _ pid _ oracle _).2.2.1]
          · rw [(piece_write_success_prefK _ pid _ oracle _).2.1]

theorem process_message_wf_sub (p : Peer) (pid : Nat) (m : Message) (oracle : Nat)
    (elapsed : ℚ) :
    (((process_message p pid m oracle elapsed).1.peer_states.map Prod.fst).Sublist
      (p.peer_states.map Prod.fst)) ∧
    ((process_message p pid m oracle elapsed).1.connections.Sublist p.connections) ∧
    ((process_message p pid m oracle elapsed).1.preferred_neighbors.Sublist
      p.preferred_neighbors) := by
  unfold process_message
  cases lookupA p.peer_states pid with
  | none => exact ⟨List.Sublist.refl _, List.Sublist.refl _, List.Sublist.refl _⟩
  | some st =>
    dsimp only
    cases m.type_name with
    | bitfield =>
      dsimp only
      rw [handle_bitfield_keys, handle_bitfield_connections,
        (handle_bitfield_prefK p pid m).2]
      exact ⟨List.Sublist.refl _, List.Sublist.refl _, List.Sublist.refl _⟩
    | interested =>
      dsimp only [handle_interested]
      rw [keys_updA]
      exact ⟨List.Sublist.refl _, List.Sublist.refl _, List.Sublist.refl _⟩
    | not_interested =>
      dsimp only [handle_not_interested]
      rw [keys_updA]
      exact ⟨List.Sublist.refl _, List.Sublist.refl _, List.Sublist.refl _⟩
    | choke =>
      dsimp only [handle_choke]
      rw [keys_updA]
      exact ⟨List.Sublist.refl _, List.Sublist.refl _, List.Sublist.refl _⟩
    | unchoke =>
      dsimp only
      rw [handle_unchoke_keys, handle_unchoke_connections,
        (handle_unchoke_prefK p pid oracle).2]
      exact ⟨List.Sublist.refl _, List.Sublist.refl _, List.Sublist.refl _⟩
    | «have» =>
      dsimp only
      rw [handle_have_keys, handle_have_connections, (handle_have_prefK p pid m).2]
      exact ⟨List.Sublist.refl _, List.Sublist.refl _, List.Sublist.refl _⟩
    | request =>
      dsimp only
      rw [handle_request_keys, handle_request_connections,
        (handle_request_prefK p pid m elapsed).2]
      exact ⟨List.Sublist.refl _, List.Sublist.refl _, List.Sublist.refl _⟩
    | piece =>
      dsimp only
      exact handle_piece_wf_sub p pid m oracle elapsed

theorem recalc_preferred_keys (p : Peer) (shuffled : List (Nat × PeerState)) :
    (recalc_preferred p shuffled).1.peer_states.map Prod.fst =
      p.peer_states.map Prod.fst := by
  unfold recalc_preferred
  by_cases hi : interestedList p = []
  · rw [if_pos hi]
  · rw [if_neg hi]
    dsimp only [sendChokeAll, sendUnchokeAll]
    exact (sendUnchokeAll_keys _ _ _).trans (sendChokeAll_keys _ _ _)

theorem recalc_preferred_connections (p : Peer) (shuffled : List (Nat × PeerState)) :
    (recalc_preferred p shuffled).1.connections = p.connections := by
  unfold recalc_preferred
  by_cases hi : interestedList p = []
  · rw [if_pos hi]
  · rw [if_neg hi]
    dsimp only [sendChokeAll, sendUnchokeAll]
    exact (statesOnly_trans (sendChokeAll_statesOnly _ p [])
      (sendUnchokeAll_statesOnly _ _ [])).connections

/-- The freshly computed preferred list is duplicate-free: both branches
take a prefix of a permutation of the interested sessions, whose keys are
duplicate-free whenever the session keys are. -/
theorem recalc_preferred_pref_nodup (p : Peer) (shuffled : List (Nat × PeerState))
    (hperm : shuffled.Perm (interestedList p))
    (hkeys : (p.peer_states.map Prod.fst).Nodup)
    (hpref : p.preferred_neighbors.Nodup) :
    (recalc_preferred p shuffled).1.preferred_neighbors.Nodup := by
  have hint : ((interestedList p).map Prod.fst).Nodup :=
    List.Sublist.nodup (List.Sublist.map Prod.fst (List.filter_sublist _)) hkeys
  unfold recalc_preferred
  by_cases hi : interestedList p = []
  · rw [if_pos hi]
    exact hpref
  · rw [if_neg hi]
    dsimp only
    split
    · refine List.Sublist.nodup (List.Sublist.map Prod.fst (List.take_sublist _ _)) ?_
      exact ((hperm.map Prod.fst).nodup_iff).mpr hint
    · refine List.Sublist.nodup (List.Sublist.map Prod.fst (List.take_sublist _ _)) ?_
      exact (((List.mergeSort_perm (interestedList p) rateLe).map Prod.fst).nodup_iff).mpr
        hint

theorem select_optimistic_keys (p : Peer) (oracle : Nat) :
    (select_optimistic p oracle).1.peer_states.map Prod.fst =
      p.peer_states.map Prod.fst := by
  unfold select_optimistic
  dsimp only
  split
  · rfl
  · refine (send_unchoke_keys _ _).trans ?_
    cases p.optimistic_unchoked with
    | none => rfl
    | some prev =>
      dsimp only
      split
      · exact send_choke_keys p prev
      · rfl

theorem select_optimistic_connections (p : Peer) (oracle : Nat) :
    (select_optimistic p oracle).1.connections = p.connections := by
  unfold select_optimistic
  dsimp only
  split
  · rfl
  · refine (statesOnly_trans ?_ (send_unchoke_statesOnly _ _)).connections
    cases p.optimistic_unchoked with
    | none => exact statesOnly_refl p
    | some prev =>
      dsimp only
      split
      · exact send_choke_statesOnly p prev
      · exact statesOnly_refl p

theorem handle_new_connection_WF (p : Peer) (pid : Nat) (h : WF p) :
    WF (handle_new_connection p pid).1 := by
  obtain ⟨h1, h2, h3⟩ := h
  unfold handle_new_connection
  refine ⟨keys_setA_nodup _ _ _ h1, ?_, h3⟩
  by_cases hc : pid ∈ p.connections
  · rw [if_pos hc]
    exact h2
  · rw [if_neg hc]
    exact List.Nodup.append h2 (List.nodup_singleton _) (by simp [hc])

theorem step_WF {p q : Peer} {e : Event} (h : Step p e q) (hwf : WF p) : WF q := by
  obtain ⟨h1, h2, h3⟩ := hwf
  cases h with
  | msg pid m oracle elapsed =>
    obtain ⟨s1, s2, s3⟩ := process_message_wf_sub p pid m oracle elapsed
    exact ⟨s1.nodup h1, s2.nodup h2, s3.nodup h3⟩
  | recalcTick shuffled hperm =>
    refine ⟨?_, ?_, recalc_preferred_pref_nodup p shuffled hperm h1 h3⟩
    · rw [recalc_preferred_keys]
      exact h1
    · rw [recalc_preferred_connections]
      exact h2
  | optTick oracle =>
    refine ⟨?_, ?_, ?_⟩
    · rw [select_optimistic_keys]
      exact h1
    · rw [select_optimistic_connections]
      exact h2
    · rw [(select_optimistic_prefK p oracle).2]
      exact h3
  | connect pid => exact handle_new_connection_WF p pid ⟨h1, h2, h3⟩
  | remove pid =>
    unfold remove_peer
    exact ⟨List.Sublist.nodup (keys_eraseA_sublist _ _) h1,
      List.Sublist.nodup (List.erase_sublist _ _) h2,
      List.Sublist.nodup (List.erase_sublist _ _) h3⟩

theorem path_WF {p q : Peer} {es : List Event} (h : Path p es q) (hp : WF p) : WF q := by
  induction h with
  | nil => exact hp
  | cons hstep hpath ih => exact ih (step_WF hstep hp)

theorem initPeer_WF (c : Config) : WF (initPeer c) :=
  ⟨List.nodup_nil, List.nodup_nil, List.nodup_nil⟩

/-- C10: removing a session is a complete cleanup of the derived state.
At every reachable state, after `_remove_peer(peer_id)` the removed id is
absent from the connections map, absent from the session-state map, absent
from the preferred-neighbors list, and `optimistic_unchoked` no longer
points at it; every other peer keeps exactly its connection membership,
its session state, its preferred membership and its optimistic mark. -/
theorem C10_remove_peer_cleanup (c : Config) (p : Peer) (h : Reachable c p)
    (pid : Nat) :
    pid ∉ (remove_peer p pid).connections ∧
    lookupA (remove_peer p pid).peer_states pid = none ∧
    pid ∉ (remove_peer p pid).preferred_neighbors ∧
    (remove_peer p pid).optimistic_unchoked ≠ some pid ∧
    ∀ r, r ≠ pid →
      ((r ∈ (remove_peer p pid).connections ↔ r ∈ p.connections) ∧
       lookupA (remove_peer p pid).peer_states r = lookupA p.peer_states r ∧
       (r ∈ (remove_peer p pid).preferred_neighbors ↔
         r ∈ p.preferred_neighbors) ∧
       ((remove_peer p pid).optimistic_unchoked = some r ↔
         p.optimistic_unchoked = some r)) := by
  obtain ⟨tr, hpath⟩ := h
  obtain ⟨h1, h2, h3⟩ := path_WF hpath (initPeer_WF c)
  unfold remove_peer
  dsimp only
  refine ⟨?_, lookupA_eraseA_self _ _ h1, ?_, ?_, ?_⟩
  · intro hmem
    exact ((h2.mem_erase_iff).mp hmem).1 rfl
  · intro hmem
    exact ((h3.mem_erase_iff).mp hmem).1 rfl
  · by_cases hopt : p.optimistic_unchoked = some pid
    · rw [if_pos hopt]
      exact fun hc => Option.noConfusion hc
    · rw [if_neg hopt]
      exact hopt
  · intro r hr
    refine ⟨List.mem_erase_of_ne hr, lookupA_eraseA_ne _ _ _ hr,
      List.mem_erase_of_ne hr, ?_⟩
    by_cases hopt : p.optimistic_unchoked = some pid
    · rw [if_pos hopt, hopt]
      constructor
      · intro hc
        exact Option.noConfusion hc
      · intro hc
        exact absurd (Option.some.inj hc) (fun hpr => hr hpr.symm)
    · rw [if_neg hopt]

/-- Concrete startup configuration exercising the C10 theorem. -/
def cfgC10 : Config := ⟨7, 2, 4, 4, false, fun _ => []⟩

theorem C10_remove_peer_cleanup_witness :
    5 ∉ (remove_peer (initPeer cfgC10) 5).connections ∧
    lookupA (remove_peer (initPeer cfgC10) 5).peer_states 5 = none ∧
    5 ∉ (remove_peer (initPeer cfgC10) 5).preferred_neighbors ∧
    (remove_peer (initPeer cfgC10) 5).optimistic_unchoked ≠ some 5 ∧
    ∀ r, r ≠ 5 →
      ((r ∈ (remove_peer (initPeer cfgC10) 5).connections ↔
         r ∈ (initPeer cfgC10).connections) ∧
       lookupA (remove_peer (initPeer cfgC10) 5).peer_states r =
         lookupA (initPeer cfgC10).peer_states r ∧
       (r ∈ (remove_peer (initPeer cfgC10) 5).preferred_neighbors ↔
         r ∈ (initPeer cfgC10).preferred_neighbors) ∧
       ((remove_peer (initPeer cfgC10) 5).optimistic_unchoked = some r ↔
         (initPeer cfgC10).optimistic_unchoked = some r)) :=
  C10_remove_peer_cleanup cfgC10 (initPeer cfgC10) ⟨[], Path.nil _⟩ 5

end P2P
